import Mathlib

/-!
Verification of the TicketX social core (`ticketx_fixed.py`).

This file gives a shallow embedding of the social-core data model and
operations of the repository (class `SocialStore`, the `paginate` helper and
the trending score) and proves the specified properties about them.

Modelling conventions:
* Python `dict` values become association lists `List (String × α)` with
  insertion-order preserved; `d[k] = v` is `setk`, `d.pop(k, None)` is `popk`,
  `d.get(k)` is `dget`, `d.setdefault(k, v)` is `setdefault`.
* Python `set` becomes `Finset String` where only membership and size are
  used (likes, hashtags, mentions), and a duplicate-free `List String` where
  the code iterates over it (followers / following); `set.add` is
  `List.insert`, `set.discard` is `List.erase`.
* Python strings holding free text become `List Char`; `text[:n]` is
  `List.take n`.
* `time.time()` float timestamps become `ℚ` (every IEEE float value is a
  rational); the trending score, which uses the irrational exponent `0.7`,
  lives in `ℝ`.
* The fresh random tokens produced by `secrets.token_hex` are passed in as
  explicit arguments; where uniqueness of a generated post id matters, the
  reachability relation carries a freshness hypothesis modelling the
  collision-freeness of the random token source.
* Regex matching (`TAG_RE` / `AT_RE` with `re.finditer`) is embedded as an
  explicit left-to-right scanner over ASCII word characters `[a-zA-Z0-9_]`.
-/

/-- Python `dict.get`: first binding of a key in an association list. -/
def dget (k : String) : List (String × α) → Option α
  | [] => none
  | (a, b) :: t => if a = k then some b else dget k t

/-- Python `d[k] = v`: replace the binding of an existing key in place,
otherwise append the new binding at the end (dicts keep insertion order). -/
def setk (k : String) (v : α) : List (String × α) → List (String × α)
  | [] => [(k, v)]
  | (a, b) :: t => if a = k then (k, v) :: t else (a, b) :: setk k v t

/-- Python `d.pop(k, None)`: remove the binding of a key. -/
def popk (k : String) (l : List (String × α)) : List (String × α) :=
  l.filter (fun kv => kv.1 ≠ k)

/-- Python `d.setdefault(k, v)`: insert `v` only when the key is absent. -/
def setdefault (k : String) (v : α) (l : List (String × α)) : List (String × α) :=
  if (dget k l).isSome then l else setk k v l

/-- The keys of an association list, in order. -/
def keysOf (l : List (String × α)) : List String := l.map Prod.fst

/-- A dict has each key bound at most once. -/
def NodupKeys (l : List (String × α)) : Prop := (keysOf l).Nodup

theorem dget_setk_self (k : String) (v : α) (l : List (String × α)) :
    dget k (setk k v l) = some v := by
  induction l with
  | nil => simp [setk, dget]
  | cons hd t ih =>
    obtain ⟨a, b⟩ := hd
    by_cases h : a = k <;> simp [setk, dget, h, ih]

theorem dget_setk_ne {a k : String} (h : a ≠ k) (v : α) (l : List (String × α)) :
    dget a (setk k v l) = dget a l := by
  induction l with
  | nil => simp [setk, dget, Ne.symm h]
  | cons hd t ih =>
    obtain ⟨x, y⟩ := hd
    by_cases hx : x = k
    · subst hx
      simp [setk, dget, Ne.symm h]
    · simp only [setk, if_neg hx, dget]
      by_cases hxa : x = a <;> simp [hxa, ih]

theorem dget_popk_self (k : String) (l : List (String × α)) :
    dget k (popk k l) = none := by
  induction l with
  | nil => simp [popk, dget]
  | cons hd t ih =>
    obtain ⟨a, b⟩ := hd
    by_cases h : a = k <;> simp [popk, dget, h] at ih ⊢ <;> simp [ih, h]

theorem dget_popk_ne {a k : String} (h : a ≠ k) (l : List (String × α)) :
    dget a (popk k l) = dget a l := by
  induction l with
  | nil => simp [popk, dget]
  | cons hd t ih =>
    obtain ⟨x, y⟩ := hd
    simp only [popk, ne_eq, decide_not, List.filter_cons] at ih ⊢
    by_cases hx : x = k
    · subst hx
      simp [dget, Ne.symm h, ih]
    · by_cases hxa : x = a
      · subst hxa
        simp [hx, dget, ih]
      · simp [hx, hxa, dget, ih]

theorem isSome_dget_setk (a k : String) (v : α) (l : List (String × α)) :
    (dget a (setk k v l)).isSome ↔ a = k ∨ (dget a l).isSome := by
  by_cases h : a = k
  · subst h; simp [dget_setk_self]
  · simp [dget_setk_ne h, h]

theorem mem_of_dget {l : List (String × α)} {a : String} {v : α}
    (h : dget a l = some v) : (a, v) ∈ l := by
  induction l with
  | nil => simp [dget] at h
  | cons hd t ih =>
    obtain ⟨x, y⟩ := hd
    by_cases hx : x = a
    · subst hx; simp [dget] at h; simp [h]
    · simp [dget, hx] at h; simp [ih h]

theorem dget_of_mem {l : List (String × α)} (hn : NodupKeys l) {a : String} {v : α}
    (h : (a, v) ∈ l) : dget a l = some v := by
  induction l with
  | nil => simp at h
  | cons hd t ih =>
    obtain ⟨x, y⟩ := hd
    simp only [NodupKeys, keysOf, List.map_cons, List.nodup_cons] at hn
    rcases List.mem_cons.mp h with h | h
    · injection h with h1 h2
      subst h1; subst h2
      simp [dget]
    · have hxa : x ≠ a := by
        intro hh
        subst hh
        exact hn.1 (List.mem_map_of_mem Prod.fst h)
      simp only [dget, if_neg hxa]
      exact ih hn.2 h

theorem dget_isSome_iff_mem_keys (a : String) (l : List (String × α)) :
    (dget a l).isSome ↔ a ∈ keysOf l := by
  induction l with
  | nil => simp [dget, keysOf]
  | cons hd t ih =>
    obtain ⟨x, y⟩ := hd
    by_cases hx : x = a
    · subst hx; simp [dget, keysOf]
    · simp [dget, keysOf, hx, Ne.symm hx, ih]

theorem dget_eq_none_iff (a : String) (l : List (String × α)) :
    dget a l = none ↔ a ∉ keysOf l := by
  rw [← dget_isSome_iff_mem_keys]
  cases dget a l <;> simp

theorem mem_keys_setk (a k : String) (v : α) (l : List (String × α)) :
    a ∈ keysOf (setk k v l) ↔ a = k ∨ a ∈ keysOf l := by
  rw [← dget_isSome_iff_mem_keys, ← dget_isSome_iff_mem_keys]
  exact isSome_dget_setk a k v l

theorem nodupKeys_setk {l : List (String × α)} (hn : NodupKeys l) (k : String) (v : α) :
    NodupKeys (setk k v l) := by
  induction l with
  | nil => simp [NodupKeys, setk, keysOf]
  | cons hd t ih =>
    obtain ⟨x, y⟩ := hd
    simp only [NodupKeys, keysOf, List.map_cons, List.nodup_cons] at hn
    by_cases hx : x = k
    · subst hx
      have e : setk x v ((x, y) :: t) = (x, v) :: t := by simp [setk]
      rw [e]
      simp only [NodupKeys, keysOf, List.map_cons, List.nodup_cons]
      exact hn
    · have ih' := ih hn.2
      simp only [setk, if_neg hx, NodupKeys, keysOf, List.map_cons, List.nodup_cons]
      refine ⟨fun hmem => ?_, ih'⟩
      have hmem' : x ∈ keysOf (setk k v t) := hmem
      rw [mem_keys_setk] at hmem'
      rcases hmem' with hh | hh
      · exact hx hh
      · exact hn.1 hh

theorem keys_setdefault_of_isSome {l : List (String × α)} {k : String}
    (h : (dget k l).isSome) (v : α) : setdefault k v l = l := by
  simp [setdefault, h]

/-- An ASCII word character, the `\w` class restricted to `[a-zA-Z0-9_]` as in
the character class of `TAG_RE` and `AT_RE` (the embedding treats text as
ASCII, where Python `\w` coincides with this class). -/
def isWordChar (c : Char) : Bool :=
  (('a' ≤ c ∧ c ≤ 'z') ∨ ('A' ≤ c ∧ c ≤ 'Z') ∨ ('0' ≤ c ∧ c ≤ '9') ∨ c = '_')

/-- The greedy capture `([a-z0-9_]{1,30})` starting at a position: the run of
word characters, truncated at 30. -/
def takeRun (s : List Char) : List Char := (s.takeWhile isWordChar).take 30

/-- Python `str.lower()` on an ASCII capture. -/
def low (l : List Char) : String := String.mk (l.map Char.toLower)

/-- Embedding of `re.finditer` with the pattern of `TAG_RE`/`AT_RE` followed
by taking the lower-cased group 1 of every match: scan left to right; at a
position holding `sym` whose preceding character is not a word character
(`prev` tracks that lookbehind; it is `false` at the start of the text) and
which is followed by at least one word character, emit the lower-cased greedy
capture and resume after the match, else advance one character. The `fuel`
argument only makes the recursion structural; every step consumes at least
one character, so `fuel = length` never runs out. -/
def scanSymGo (sym : Char) : Nat → Bool → List Char → List String
  | 0, _, _ => []
  | _ + 1, _, [] => []
  | fuel + 1, prev, c :: rest =>
    if c = sym ∧ prev = false ∧ takeRun rest ≠ [] then
      low (takeRun rest) :: scanSymGo sym fuel true (rest.drop (takeRun rest).length)
    else
      scanSymGo sym fuel (isWordChar c) rest

/-- The full `finditer` scan of a text. -/
def scanSym (sym : Char) (prev : Bool) (s : List Char) : List String :=
  scanSymGo sym s.length prev s

/-- Modelled from the spec sentence "a hashtag token matches `#` followed by
1–30 word characters `[a-zA-Z0-9_]`, case-insensitively, not preceded by a
word character": visit every position of the text in turn (never skipping
any), and at each position holding `sym` that is not preceded by a word
character and is followed by at least one word character, emit the lower-cased
capture of up to 30 word characters. -/
def posSym (sym : Char) (prev : Bool) (s : List Char) : List String :=
  match s with
  | [] => []
  | c :: rest =>
    if c = sym ∧ prev = false ∧ takeRun rest ≠ [] then
      low (takeRun rest) :: posSym sym (isWordChar c) rest
    else
      posSym sym (isWordChar c) rest

theorem takeRun_sublist_aux (p : Char → Bool) (n : Nat) :
    ∀ l : List Char, ((l.takeWhile p).take n) ++ l.drop ((l.takeWhile p).take n).length = l := by
  intro l
  induction l generalizing n with
  | nil => simp
  | cons c t ih =>
    by_cases hc : p c
    · cases n with
      | zero => simp
      | succ m =>
        simp only [List.takeWhile_cons, hc, if_true, List.take_succ_cons,
          List.length_cons, List.cons_append, List.drop_succ_cons]
        rw [ih m]
    · simp [List.takeWhile_cons, hc]

theorem takeRun_append_drop (s : List Char) :
    takeRun s ++ s.drop (takeRun s).length = s :=
  takeRun_sublist_aux isWordChar 30 s

theorem mem_takeRun_isWordChar {s : List Char} {c : Char} (h : c ∈ takeRun s) :
    isWordChar c = true := by
  have h1 : c ∈ s.takeWhile isWordChar := List.take_subset 30 _ h
  exact List.mem_takeWhile_imp h1

theorem posSym_cons_of_word (sym : Char) (hsym : isWordChar sym = false)
    {c : Char} (hc : isWordChar c = true) (u : List Char) (prev : Bool) :
    posSym sym prev (c :: u) = posSym sym true u := by
  have hne : ¬(c = sym ∧ prev = false ∧ takeRun u ≠ []) := by
    intro hh
    rw [hh.1, hsym] at hc
    exact Bool.false_ne_true hc
  simp only [posSym]
  rw [if_neg hne, hc]

/-- Auxiliary: the positional scan never matches inside a run of word
characters (the symbol is not a word character), and leaves the lookbehind
flag set after it. -/
theorem posSym_append_run (sym : Char) (hsym : isWordChar sym = false) :
    ∀ (run : List Char), run ≠ [] → (∀ c ∈ run, isWordChar c = true) →
      ∀ (t : List Char) (prev : Bool), posSym sym prev (run ++ t) = posSym sym true t := by
  intro run
  induction run with
  | nil => intro h; exact absurd rfl h
  | cons c cs ih =>
    intro _ hw t prev
    have hc : isWordChar c = true := hw c (by simp)
    rw [List.cons_append, posSym_cons_of_word sym hsym hc]
    by_cases hcse : cs = []
    · subst hcse; simp
    · exact ih hcse (fun d hd => hw d (List.mem_cons_of_mem c hd)) t true

theorem scanSymGo_eq_posSym (sym : Char) (hsym : isWordChar sym = false) :
    ∀ (n : Nat) (s : List Char), s.length ≤ n → ∀ prev : Bool,
      scanSymGo sym n prev s = posSym sym prev s := by
  intro n
  induction n with
  | zero =>
    intro s hs prev
    rw [List.length_eq_zero.mp (Nat.le_zero.mp hs)]
    simp [scanSymGo, posSym]
  | succ m ihm =>
    intro s hs prev
    cases s with
    | nil => simp [scanSymGo, posSym]
    | cons c rest =>
      have hrest : rest.length ≤ m := by
        simp only [List.length_cons] at hs
        omega
      by_cases hm : c = sym ∧ prev = false ∧ takeRun rest ≠ []
      · simp only [scanSymGo, posSym]
        rw [if_pos hm, if_pos hm]
        have hw : ∀ d ∈ takeRun rest, isWordChar d = true := fun d hd =>
          mem_takeRun_isWordChar hd
        have e1 : posSym sym (isWordChar c) rest =
            posSym sym true (rest.drop (takeRun rest).length) := by
          conv_lhs => rw [← takeRun_append_drop rest]
          exact posSym_append_run sym hsym _ hm.2.2 hw _ _
        rw [e1]
        have hdrop : (rest.drop (takeRun rest).length).length ≤ m := by
          simp only [List.length_drop]
          omega
        rw [ihm _ hdrop true]
      · simp only [scanSymGo, posSym]
        rw [if_neg hm, if_neg hm]
        exact ihm _ hrest (isWordChar c)

/-- The `finditer` scan and the positional (check-every-position) scan agree:
skipping over a match cannot skip another match, because a match consists of
the symbol followed by word characters only. -/
theorem scanSym_eq_posSym (sym : Char) (hsym : isWordChar sym = false) (s : List Char)
    (prev : Bool) : scanSym sym prev s = posSym sym prev s :=
  scanSymGo_eq_posSym sym hsym s.length s le_rfl prev

/-- A registered user (`@dataclass User` in the source). Followers and
following are Python sets of usernames, modelled as duplicate-free lists. -/
structure User where
  username : String
  password_hash : String
  bio : List Char := []
  avatar_path : Option String := none
  followers : List String := []
  following : List String := []
deriving DecidableEq

/-- Stand-in for `demo_hash` (`str(abs(hash(("tx_salt", pw))))`): Python's
built-in `hash` is an unspecified per-process function, so the embedding picks
a fixed deterministic stand-in; no claim depends on its value. -/
def demo_hash (pw : String) : String := String.append "tx_salt:" pw

/-- A comment on a post (`@dataclass Comment`). -/
structure Comment where
  author : String
  text : List Char
  ts : ℚ
deriving DecidableEq

/-- A post (`@dataclass Post`). -/
structure Post where
  id : String
  author : String
  text : List Char
  ts : ℚ
  image_url : Option String := none
  likes : Finset String := ∅
  comments : List Comment := []
  hashtags : Finset String := ∅
  mentions : Finset String := ∅
deriving DecidableEq

/-- The store state (`SocialStore.__init__`): five empty dicts. -/
structure SocialStore where
  users : List (String × User) := []
  sessions : List (String × String) := []
  csrf_tokens : List (String × String) := []
  posts : List (String × Post) := []
  user_posts : List (String × List String) := []
deriving DecidableEq

namespace SocialStore

/-- `SocialStore.create_user`. -/
def create_user (s : SocialStore) (username pw : String) : Bool × SocialStore :=
  if username = "" ∨ pw = "" ∨ (dget username s.users).isSome then (false, s)
  else
    (true, { s with
      users := setk username { username := username, password_hash := demo_hash pw } s.users,
      user_posts := setdefault username [] s.user_posts })

/-- `SocialStore.update_profile`; `None` arguments mean "field not given". -/
def update_profile (s : SocialStore) (username : String) (bio : Option (List Char))
    (avatar_path : Option String) : Bool × SocialStore :=
  match dget username s.users with
  | none => (false, s)
  | some u =>
    let u1 := match bio with
      | none => u
      | some b => { u with bio := b.take 200 }
    let u2 := match avatar_path with
      | none => u1
      | some a => { u1 with avatar_path := some a }
    (true, { s with users := setk username u2 s.users })

/-- `SocialStore.verify_login`. -/
def verify_login (s : SocialStore) (username pw : String) : Bool :=
  match dget username s.users with
  | none => false
  | some u => u.password_hash = demo_hash pw

/-- `SocialStore.new_session`; the two fresh `secrets.token_hex(16)` values
are passed in as `sid` and `csrf`. -/
def new_session (s : SocialStore) (username sid csrf : String) : String × SocialStore :=
  (sid, { s with
    sessions := setk sid username s.sessions,
    csrf_tokens := setk sid csrf s.csrf_tokens })

/-- `SocialStore.username_for_sid` (`self.sessions.get(sid) if sid else None`;
both `None` and the empty string are falsy). -/
def username_for_sid (s : SocialStore) (sid : Option String) : Option String :=
  match sid with
  | none => none
  | some i => if i = "" then none else dget i s.sessions

/-- `SocialStore.csrf_for_sid`. -/
def csrf_for_sid (s : SocialStore) (sid : Option String) : Option String :=
  match sid with
  | none => none
  | some i => if i = "" then none else dget i s.csrf_tokens

/-- `SocialStore.destroy_session`. -/
def destroy_session (s : SocialStore) (sid : Option String) : SocialStore :=
  match sid with
  | none => s
  | some i =>
    if i = "" then s
    else { s with
      sessions := popk i s.sessions,
      csrf_tokens := popk i s.csrf_tokens }

/-- `SocialStore.follow`. -/
def follow (s : SocialStore) (follower target : String) : Bool × SocialStore :=
  if follower = target then (false, s)
  else
    match dget follower s.users, dget target s.users with
    | some fu, some tu =>
      (true, { s with
        users := setk target { tu with followers := tu.followers.insert follower }
          (setk follower { fu with following := fu.following.insert target } s.users) })
    | _, _ => (false, s)

/-- `SocialStore.unfollow`. There is no `follower ≠ target` guard, and the two
set mutations hit the same `User` object when `follower == target`, so the
second update reads the user map after the first one. -/
def unfollow (s : SocialStore) (follower target : String) : Bool × SocialStore :=
  if (dget follower s.users).isNone ∨ (dget target s.users).isNone then (false, s)
  else
    let users1 := match dget follower s.users with
      | some fu => setk follower { fu with following := fu.following.erase target } s.users
      | none => s.users
    let users2 := match dget target users1 with
      | some tu => setk target { tu with followers := tu.followers.erase follower } users1
      | none => users1
    (true, { s with users := users2 })

/-- `SocialStore.extract_tags_mentions`: the two lower-cased capture sets of
`TAG_RE.finditer` and `AT_RE.finditer`. -/
def extract_tags_mentions (text : List Char) : Finset String × Finset String :=
  ((scanSym '#' false text).toFinset, (scanSym '@' false text).toFinset)

/-- `SocialStore.create_post`; the generated id `pid` (fresh random token plus
millisecond timestamp) and the creation time `ts` are passed in explicitly.
An empty-string `image_url` is falsy in both the guard and the stored field. -/
def create_post (s : SocialStore) (author : String) (text : List Char)
    (image_url : Option String) (pid : String) (ts : ℚ) : Option String × SocialStore :=
  if (dget author s.users).isNone ∨ (text = [] ∧ image_url.getD "" = "") then (none, s)
  else
    let tm := extract_tags_mentions text
    let p : Post :=
      { id := pid, author := author, text := text.take 280, ts := ts,
        image_url := if image_url.getD "" = "" then none else image_url,
        hashtags := tm.1, mentions := tm.2 }
    (some pid, { s with
      posts := setk pid p s.posts,
      user_posts := setk author (pid :: (dget author s.user_posts).getD []) s.user_posts })

/-- `SocialStore.toggle_like`. -/
def toggle_like (s : SocialStore) (pid username : String) : Bool × SocialStore :=
  match dget pid s.posts with
  | none => (false, s)
  | some p =>
    if (dget username s.users).isNone then (false, s)
    else
      let p2 : Post :=
        { p with likes := if username ∈ p.likes then p.likes.erase username
                          else insert username p.likes }
      (true, { s with posts := setk pid p2 s.posts })

/-- `SocialStore.add_comment`. -/
def add_comment (s : SocialStore) (pid author : String) (text : List Char) (ts : ℚ) :
    Bool × SocialStore :=
  match dget pid s.posts with
  | none => (false, s)
  | some p =>
    if (dget author s.users).isNone ∨ text = [] then (false, s)
    else
      let c : Comment := { author := author, text := text.take 200, ts := ts }
      let p2 : Post := { p with comments := p.comments ++ [c] }
      (true, { s with posts := setk pid p2 s.posts })

/-- The comparison `posts.sort(key=lambda p: p.ts, reverse=True)` sorts with:
`p` comes no later than `q` when `q.ts ≤ p.ts`. -/
def tsDesc (p q : Post) : Bool := decide (q.ts ≤ p.ts)

/-- `SocialStore.feed_for`. -/
def feed_for (s : SocialStore) (username : String) : List Post :=
  match dget username s.users with
  | none => []
  | some u =>
    let authors := u.following.insert username
    let ids := authors.flatMap (fun a => (dget a s.user_posts).getD [])
    let posts := ids.filterMap (fun i => dget i s.posts)
    posts.mergeSort tsDesc

/-- `SocialStore.global_feed`. -/
def global_feed (s : SocialStore) : List Post :=
  (s.posts.map Prod.snd).mergeSort tsDesc

/-- `SocialStore.by_hashtag`. -/
def by_hashtag (s : SocialStore) (tag : String) : List Post :=
  ((s.posts.map Prod.snd).filter (fun p => low tag.data ∈ p.hashtags)).mergeSort tsDesc

/-- `SocialStore.mentioning`. -/
def mentioning (s : SocialStore) (name : String) : List Post :=
  ((s.posts.map Prod.snd).filter (fun p => low name.data ∈ p.mentions)).mergeSort tsDesc

/-- The trending score of a post at query time `now` (seconds):
`(likes*3 + comments*2 + 1) / max(1, hoursSince)**0.7`, recomputed from the
current like/comment counts and the current time. -/
noncomputable def score (now : ℚ) (p : Post) : ℝ :=
  ((p.likes.card * 3 + p.comments.length * 2 + 1 : ℕ) : ℝ) /
    ((max 1 ((now - p.ts) / 3600) : ℚ) : ℝ) ^ (0.7 : ℝ)

/-- `SocialStore.trending`: all posts sorted by descending score. -/
noncomputable def trending (s : SocialStore) (now : ℚ) : List Post :=
  (s.posts.map Prod.snd).mergeSort (fun a b => decide (score now b ≤ score now a))

end SocialStore

/-- The module-level `paginate` helper. Division by zero raises
`ZeroDivisionError` in Python, embedded as `none`; for a positive `per_page`
the result is `some (pageItems, totalPages)`. -/
def paginate (items : List α) (page : ℤ) (per_page : ℕ) : Option (List α × ℕ) :=
  if per_page = 0 then none
  else
    let total_pages : ℕ := max 1 ((items.length + per_page - 1) / per_page)
    let page2 : ℤ := max 1 (min page (total_pages : ℤ))
    let start : ℕ := (page2 - 1).toNat * per_page
    some ((items.drop start).take per_page, total_pages)

theorem isSome_dget_setk_of_mem {l : List (String × α)} {k : String}
    (hk : (dget k l).isSome) (v : α) (a : String) :
    (dget a (setk k v l)).isSome ↔ (dget a l).isSome := by
  rw [isSome_dget_setk]
  constructor
  · rintro (rfl | h)
    · exact hk
    · exact h
  · exact Or.inr

theorem mem_keys_setk_of_mem {l : List (String × α)} {k : String}
    (hk : k ∈ keysOf l) (v : α) (a : String) :
    a ∈ keysOf (setk k v l) ↔ a ∈ keysOf l := by
  rw [← dget_isSome_iff_mem_keys, ← dget_isSome_iff_mem_keys]
  exact isSome_dget_setk_of_mem ((dget_isSome_iff_mem_keys k l).mpr hk) v a

namespace SocialStore

/-- The states reachable from the empty store by the core mutators. The
`create_post` step carries the hypothesis that the generated post id is fresh,
modelling the collision-free random/time-based id source
(`p_{ms}_{token_hex}`). -/
inductive Reachable : SocialStore → Prop where
  | init : Reachable {}
  | create_user {s} (username pw : String) :
      Reachable s → Reachable (s.create_user username pw).2
  | update_profile {s} (username : String) (bio : Option (List Char))
      (avatar_path : Option String) :
      Reachable s → Reachable (s.update_profile username bio avatar_path).2
  | new_session {s} (username sid csrf : String) :
      Reachable s → Reachable (s.new_session username sid csrf).2
  | destroy_session {s} (sid : Option String) :
      Reachable s → Reachable (s.destroy_session sid)
  | follow {s} (follower target : String) :
      Reachable s → Reachable (s.follow follower target).2
  | unfollow {s} (follower target : String) :
      Reachable s → Reachable (s.unfollow follower target).2
  | create_post {s} (author : String) (text : List Char) (image_url : Option String)
      (pid : String) (ts : ℚ) : Reachable s → dget pid s.posts = none →
      Reachable (s.create_post author text image_url pid ts).2
  | toggle_like {s} (pid username : String) :
      Reachable s → Reachable (s.toggle_like pid username).2
  | add_comment {s} (pid author : String) (text : List Char) (ts : ℚ) :
      Reachable s → Reachable (s.add_comment pid author text ts).2

/-- Invariants of the user map: unique keys, duplicate-free follow lists that
only mention existing users, no self-follow, and the mirror property between
`following` and `followers`. -/
structure UsersInv (users : List (String × User)) : Prop where
  nodup : NodupKeys users
  fwgNodup : ∀ {a u}, dget a users = some u → u.following.Nodup
  fwrNodup : ∀ {a u}, dget a users = some u → u.followers.Nodup
  fwgClosed : ∀ {a u}, dget a users = some u → ∀ b ∈ u.following, b ∈ keysOf users
  fwrClosed : ∀ {a u}, dget a users = some u → ∀ b ∈ u.followers, b ∈ keysOf users
  irrefl : ∀ {a u}, dget a users = some u → a ∉ u.following
  mirror : ∀ {a ua b ub}, dget a users = some ua → dget b users = some ub →
    (b ∈ ua.following ↔ a ∈ ub.followers)

/-- Invariant of the session maps: a token is bound to a username exactly when
it is bound to a CSRF secret. -/
structure SessInv (sessions csrf_tokens : List (String × String)) : Prop where
  dom : ∀ t, (dget t sessions).isSome ↔ (dget t csrf_tokens).isSome

/-- Invariants tying the post map to the per-user post-id lists. -/
structure PostsInv (users : List (String × User)) (posts : List (String × Post))
    (user_posts : List (String × List String)) : Prop where
  nodup : NodupKeys posts
  dom : ∀ a, (dget a users).isSome ↔ (dget a user_posts).isSome
  postId : ∀ {pid p}, dget pid posts = some p → p.id = pid
  upSound : ∀ {a l}, dget a user_posts = some l → ∀ {pid}, pid ∈ l →
    ∃ p, dget pid posts = some p ∧ p.author = a
  upComplete : ∀ {pid p}, dget pid posts = some p →
    ∃ l, dget p.author user_posts = some l ∧ pid ∈ l
  upNodup : ∀ {a l}, dget a user_posts = some l → l.Nodup

/-- The conjunction of all store invariants. -/
def Inv (s : SocialStore) : Prop :=
  UsersInv s.users ∧ SessInv s.sessions s.csrf_tokens ∧
    PostsInv s.users s.posts s.user_posts

theorem usersInv_init : UsersInv ([] : List (String × User)) := by
  refine ⟨?_, ?_, ?_, ?_, ?_, ?_, ?_⟩ <;> simp [dget, NodupKeys, keysOf]

theorem inv_init : Inv {} := by
  refine ⟨usersInv_init, ⟨fun t => by simp [dget]⟩, ?_⟩
  refine ⟨?_, ?_, ?_, ?_, ?_, ?_⟩ <;> simp [dget, NodupKeys, keysOf]

theorem dget_setk_cases (a k : String) (v : α) (l : List (String × α)) :
    dget a (setk k v l) = if a = k then some v else dget a l := by
  by_cases h : a = k
  · subst h; simp [dget_setk_self]
  · simp [dget_setk_ne h, h]

theorem setk_setk_self (k : String) (v w : α) (l : List (String × α)) :
    setk k v (setk k w l) = setk k v l := by
  induction l with
  | nil => simp [setk]
  | cons hd t ih =>
    obtain ⟨x, y⟩ := hd
    by_cases hx : x = k
    · subst hx; simp [setk]
    · simp [setk, hx, ih]

theorem usersInv_create_user {users : List (String × User)} (hI : UsersInv users)
    {username : String} (hnew : dget username users = none) (newU : User)
    (hg : newU.following = []) (hr : newU.followers = []) :
    UsersInv (setk username newU users) := by
  have hnotin : username ∉ keysOf users := (dget_eq_none_iff _ _).mp hnew
  have hacc : ∀ a, dget a (setk username newU users)
      = if a = username then some newU else dget a users := fun a =>
    dget_setk_cases a username newU users
  refine ⟨nodupKeys_setk hI.nodup _ _, ?_, ?_, ?_, ?_, ?_, ?_⟩
  · intro a u hu
    rw [hacc] at hu
    by_cases ha : a = username
    · rw [if_pos ha] at hu
      injection hu with hu; subst hu
      simp [hg]
    · rw [if_neg ha] at hu
      exact hI.fwgNodup hu
  · intro a u hu
    rw [hacc] at hu
    by_cases ha : a = username
    · rw [if_pos ha] at hu
      injection hu with hu; subst hu
      simp [hr]
    · rw [if_neg ha] at hu
      exact hI.fwrNodup hu
  · intro a u hu b hb
    rw [hacc] at hu
    rw [mem_keys_setk]
    by_cases ha : a = username
    · rw [if_pos ha] at hu
      injection hu with hu; subst hu
      rw [hg] at hb
      simp at hb
    · rw [if_neg ha] at hu
      exact Or.inr (hI.fwgClosed hu b hb)
  · intro a u hu b hb
    rw [hacc] at hu
    rw [mem_keys_setk]
    by_cases ha : a = username
    · rw [if_pos ha] at hu
      injection hu with hu; subst hu
      rw [hr] at hb
      simp at hb
    · rw [if_neg ha] at hu
      exact Or.inr (hI.fwrClosed hu b hb)
  · intro a u hu
    rw [hacc] at hu
    by_cases ha : a = username
    · rw [if_pos ha] at hu
      injection hu with hu; subst hu
      simp [hg]
    · rw [if_neg ha] at hu
      exact hI.irrefl hu
  · intro a ua b ub hua hub
    rw [hacc] at hua hub
    by_cases ha : a = username
    · subst ha
      rw [if_pos rfl] at hua
      injection hua with hua; subst hua
      by_cases hb : b = a
      · subst hb
        rw [if_pos rfl] at hub
        injection hub with hub; subst hub
        simp [hg, hr]
      · rw [if_neg hb] at hub
        rw [hg]
        simp only [List.not_mem_nil, false_iff]
        intro hmem
        exact hnotin (hI.fwrClosed hub a hmem)
    · rw [if_neg ha] at hua
      by_cases hb : b = username
      · subst hb
        rw [if_pos rfl] at hub
        injection hub with hub; subst hub
        rw [hr]
        constructor
        · intro hmem
          exact absurd (hI.fwgClosed hua b hmem) hnotin
        · intro hmem
          simp at hmem
      · rw [if_neg hb] at hub
        exact hI.mirror hua hub

theorem usersInv_update_same {users : List (String × User)} (hI : UsersInv users)
    {k : String} {u u' : User} (hk : dget k users = some u)
    (hg : u'.following = u.following) (hr : u'.followers = u.followers) :
    UsersInv (setk k u' users) := by
  have hkk : k ∈ keysOf users := (dget_isSome_iff_mem_keys k users).mp (by simp [hk])
  have hacc : ∀ a, dget a (setk k u' users)
      = if a = k then some u' else dget a users := fun a => dget_setk_cases a k u' users
  have hkeys : ∀ b, b ∈ keysOf (setk k u' users) ↔ b ∈ keysOf users := fun b =>
    mem_keys_setk_of_mem hkk u' b
  refine ⟨nodupKeys_setk hI.nodup _ _, ?_, ?_, ?_, ?_, ?_, ?_⟩
  · intro a v hv
    rw [hacc] at hv
    by_cases ha : a = k
    · rw [if_pos ha] at hv
      injection hv with hv; subst hv
      rw [hg]
      exact hI.fwgNodup hk
    · rw [if_neg ha] at hv
      exact hI.fwgNodup hv
  · intro a v hv
    rw [hacc] at hv
    by_cases ha : a = k
    · rw [if_pos ha] at hv
      injection hv with hv; subst hv
      rw [hr]
      exact hI.fwrNodup hk
    · rw [if_neg ha] at hv
      exact hI.fwrNodup hv
  · intro a v hv b hb
    rw [hacc] at hv
    rw [hkeys]
    by_cases ha : a = k
    · rw [if_pos ha] at hv
      injection hv with hv; subst hv
      rw [hg] at hb
      exact hI.fwgClosed hk b hb
    · rw [if_neg ha] at hv
      exact hI.fwgClosed hv b hb
  · intro a v hv b hb
    rw [hacc] at hv
    rw [hkeys]
    by_cases ha : a = k
    · rw [if_pos ha] at hv
      injection hv with hv; subst hv
      rw [hr] at hb
      exact hI.fwrClosed hk b hb
    · rw [if_neg ha] at hv
      exact hI.fwrClosed hv b hb
  · intro a v hv
    rw [hacc] at hv
    by_cases ha : a = k
    · rw [if_pos ha] at hv
      injection hv with hv; subst hv
      rw [hg]
      rw [ha]
      exact hI.irrefl hk
    · rw [if_neg ha] at hv
      exact hI.irrefl hv
  · intro a ua b ub hua hub
    rw [hacc] at hua hub
    by_cases ha : a = k <;> by_cases hb : b = k
    · rw [if_pos ha] at hua
      rw [if_pos hb] at hub
      injection hua with hua; subst hua
      injection hub with hub; subst hub
      rw [hg, hr, ha, hb]
      exact hI.mirror hk hk
    · rw [if_pos ha] at hua
      rw [if_neg hb] at hub
      injection hua with hua; subst hua
      rw [hg, ha]
      exact hI.mirror hk hub
    · rw [if_neg ha] at hua
      rw [if_pos hb] at hub
      injection hub with hub; subst hub
      rw [hr, hb]
      exact hI.mirror hua hk
    · rw [if_neg ha] at hua
      rw [if_neg hb] at hub
      exact hI.mirror hua hub

theorem usersInv_follow_aux {users : List (String × User)} (hI : UsersInv users)
    {f t : String} (hft : f ≠ t) {fu tu fu' tu' : User}
    (hf : dget f users = some fu) (ht : dget t users = some tu)
    (hfg : fu'.following = fu.following.insert t) (hfr : fu'.followers = fu.followers)
    (htg : tu'.following = tu.following) (htr : tu'.followers = tu.followers.insert f) :
    UsersInv (setk t tu' (setk f fu' users)) := by
  have hfk : f ∈ keysOf users := (dget_isSome_iff_mem_keys f users).mp (by simp [hf])
  have htk : t ∈ keysOf users := (dget_isSome_iff_mem_keys t users).mp (by simp [ht])
  have hacc : ∀ a, dget a (setk t tu' (setk f fu' users)) =
      if a = t then some tu' else if a = f then some fu' else dget a users := by
    intro a
    rw [dget_setk_cases, dget_setk_cases]
  have hkeys : ∀ b, b ∈ keysOf (setk t tu' (setk f fu' users)) ↔ b ∈ keysOf users := by
    intro b
    rw [mem_keys_setk, mem_keys_setk]
    constructor
    · rintro (rfl | rfl | h)
      · exact htk
      · exact hfk
      · exact h
    · exact fun h => Or.inr (Or.inr h)
  refine ⟨nodupKeys_setk (nodupKeys_setk hI.nodup _ _) _ _, ?_, ?_, ?_, ?_, ?_, ?_⟩
  · intro a u hu
    rw [hacc] at hu
    by_cases hat : a = t
    · rw [if_pos hat] at hu
      injection hu with hu; subst hu
      rw [htg]
      exact hI.fwgNodup ht
    · rw [if_neg hat] at hu
      by_cases haf : a = f
      · rw [if_pos haf] at hu
        injection hu with hu; subst hu
        rw [hfg]
        exact (hI.fwgNodup hf).insert
      · rw [if_neg haf] at hu
        exact hI.fwgNodup hu
  · intro a u hu
    rw [hacc] at hu
    by_cases hat : a = t
    · rw [if_pos hat] at hu
      injection hu with hu; subst hu
      rw [htr]
      exact (hI.fwrNodup ht).insert
    · rw [if_neg hat] at hu
      by_cases haf : a = f
      · rw [if_pos haf] at hu
        injection hu with hu; subst hu
        rw [hfr]
        exact hI.fwrNodup hf
      · rw [if_neg haf] at hu
        exact hI.fwrNodup hu
  · intro a u hu b hb
    rw [hacc] at hu
    rw [hkeys]
    by_cases hat : a = t
    · rw [if_pos hat] at hu
      injection hu with hu; subst hu
      rw [htg] at hb
      exact hI.fwgClosed ht b hb
    · rw [if_neg hat] at hu
      by_cases haf : a = f
      · rw [if_pos haf] at hu
        injection hu with hu; subst hu
        rw [hfg] at hb
        rcases List.mem_insert_iff.mp hb with rfl | hb
        · exact htk
        · exact hI.fwgClosed hf b hb
      · rw [if_neg haf] at hu
        exact hI.fwgClosed hu b hb
  · intro a u hu b hb
    rw [hacc] at hu
    rw [hkeys]
    by_cases hat : a = t
    · rw [if_pos hat] at hu
      injection hu with hu; subst hu
      rw [htr] at hb
      rcases List.mem_insert_iff.mp hb with rfl | hb
      · exact hfk
      · exact hI.fwrClosed ht b hb
    · rw [if_neg hat] at hu
      by_cases haf : a = f
      · rw [if_pos haf] at hu
        injection hu with hu; subst hu
        rw [hfr] at hb
        exact hI.fwrClosed hf b hb
      · rw [if_neg haf] at hu
        exact hI.fwrClosed hu b hb
  · intro a u hu
    rw [hacc] at hu
    by_cases hat : a = t
    · rw [if_pos hat] at hu
      injection hu with hu; subst hu
      rw [htg, hat]
      exact hI.irrefl ht
    · rw [if_neg hat] at hu
      by_cases haf : a = f
      · rw [if_pos haf] at hu
        injection hu with hu; subst hu
        rw [hfg, haf]
        rw [List.mem_insert_iff]
        push_neg
        exact ⟨hft, hI.irrefl hf⟩
      · rw [if_neg haf] at hu
        exact hI.irrefl hu
  · intro a ua b ub hua hub
    rw [hacc] at hua hub
    by_cases hat : a = t
    · subst hat
      rw [if_pos rfl] at hua
      injection hua with hua; subst hua
      by_cases hbt : b = a
      · subst hbt
        rw [if_pos rfl] at hub
        injection hub with hub; subst hub
        rw [htg, htr, List.mem_insert_iff]
        have : ¬ b = f := fun hh => hft (hh ▸ rfl)
        rw [or_iff_right this]
        exact hI.mirror ht ht
      · rw [if_neg hbt] at hub
        by_cases hbf : b = f
        · subst hbf
          rw [if_pos rfl] at hub
          injection hub with hub; subst hub
          rw [htg, hfr]
          exact hI.mirror ht hf
        · rw [if_neg hbf] at hub
          rw [htg]
          exact hI.mirror ht hub
    · rw [if_neg hat] at hua
      by_cases haf : a = f
      · subst haf
        rw [if_pos rfl] at hua
        injection hua with hua; subst hua
        by_cases hbt : b = t
        · subst hbt
          rw [if_pos rfl] at hub
          injection hub with hub; subst hub
          rw [hfg, htr, List.mem_insert_iff, List.mem_insert_iff]
          simp
        · rw [if_neg hbt] at hub
          by_cases hbf : b = a
          · subst hbf
            rw [if_pos rfl] at hub
            injection hub with hub; subst hub
            rw [hfg, hfr, List.mem_insert_iff, or_iff_right hbt]
            exact hI.mirror hf hf
          · rw [if_neg hbf] at hub
            rw [hfg, List.mem_insert_iff, or_iff_right hbt]
            exact hI.mirror hf hub
      · rw [if_neg haf] at hua
        by_cases hbt : b = t
        · subst hbt
          rw [if_pos rfl] at hub
          injection hub with hub; subst hub
          rw [htr, List.mem_insert_iff, or_iff_right haf]
          exact hI.mirror hua ht
        · rw [if_neg hbt] at hub
          by_cases hbf : b = f
          · subst hbf
            rw [if_pos rfl] at hub
            injection hub with hub; subst hub
            rw [hfr]
            exact hI.mirror hua hf
          · rw [if_neg hbf] at hub
            exact hI.mirror hua hub

theorem usersInv_unfollow_self {users : List (String × User)} (hI : UsersInv users)
    {f : String} {fu fu2 : User} (hf : dget f users = some fu)
    (hg : fu2.following = fu.following.erase f)
    (hr : fu2.followers = fu.followers.erase f) :
    UsersInv (setk f fu2 users) := by
  have hfk : f ∈ keysOf users := (dget_isSome_iff_mem_keys f users).mp (by simp [hf])
  have hacc : ∀ a, dget a (setk f fu2 users)
      = if a = f then some fu2 else dget a users := fun a => dget_setk_cases a f fu2 users
  have hkeys : ∀ b, b ∈ keysOf (setk f fu2 users) ↔ b ∈ keysOf users := fun b =>
    mem_keys_setk_of_mem hfk fu2 b
  refine ⟨nodupKeys_setk hI.nodup _ _, ?_, ?_, ?_, ?_, ?_, ?_⟩
  · intro a u hu
    rw [hacc] at hu
    by_cases ha : a = f
    · rw [if_pos ha] at hu
      injection hu with hu; subst hu
      rw [hg]
      exact (hI.fwgNodup hf).erase f
    · rw [if_neg ha] at hu
      exact hI.fwgNodup hu
  · intro a u hu
    rw [hacc] at hu
    by_cases ha : a = f
    · rw [if_pos ha] at hu
      injection hu with hu; subst hu
      rw [hr]
      exact (hI.fwrNodup hf).erase f
    · rw [if_neg ha] at hu
      exact hI.fwrNodup hu
  · intro a u hu b hb
    rw [hacc] at hu
    rw [hkeys]
    by_cases ha : a = f
    · rw [if_pos ha] at hu
      injection hu with hu; subst hu
      rw [hg] at hb
      exact hI.fwgClosed hf b (List.mem_of_mem_erase hb)
    · rw [if_neg ha] at hu
      exact hI.fwgClosed hu b hb
  · intro a u hu b hb
    rw [hacc] at hu
    rw [hkeys]
    by_cases ha : a = f
    · rw [if_pos ha] at hu
      injection hu with hu; subst hu
      rw [hr] at hb
      exact hI.fwrClosed hf b (List.mem_of_mem_erase hb)
    · rw [if_neg ha] at hu
      exact hI.fwrClosed hu b hb
  · intro a u hu
    rw [hacc] at hu
    by_cases ha : a = f
    · rw [if_pos ha] at hu
      injection hu with hu; subst hu
      rw [hg]
      intro hmem
      exact hI.irrefl hf (ha ▸ List.mem_of_mem_erase hmem)
    · rw [if_neg ha] at hu
      exact hI.irrefl hu
  · intro a ua b ub hua hub
    rw [hacc] at hua hub
    by_cases ha : a = f
    · subst ha
      rw [if_pos rfl] at hua
      injection hua with hua; subst hua
      by_cases hb : b = a
      · subst hb
        rw [if_pos rfl] at hub
        injection hub with hub; subst hub
        rw [hg, hr]
        rw [(hI.fwgNodup hf).mem_erase_iff, (hI.fwrNodup hf).mem_erase_iff]
        simp
      · rw [if_neg hb] at hub
        rw [hg, (hI.fwgNodup hf).mem_erase_iff, and_iff_right hb]
        exact hI.mirror hf hub
    · rw [if_neg ha] at hua
      by_cases hb : b = f
      · subst hb
        rw [if_pos rfl] at hub
        injection hub with hub; subst hub
        rw [hr, (hI.fwrNodup hf).mem_erase_iff, and_iff_right ha]
        exact hI.mirror hua hf
      · rw [if_neg hb] at hub
        exact hI.mirror hua hub

theorem usersInv_unfollow_aux {users : List (String × User)} (hI : UsersInv users)
    {f t : String} (hft : f ≠ t) {fu tu fu' tu' : User}
    (hf : dget f users = some fu) (ht : dget t users = some tu)
    (hfg : fu'.following = fu.following.erase t) (hfr : fu'.followers = fu.followers)
    (htg : tu'.following = tu.following) (htr : tu'.followers = tu.followers.erase f) :
    UsersInv (setk t tu' (setk f fu' users)) := by
  have hfk : f ∈ keysOf users := (dget_isSome_iff_mem_keys f users).mp (by simp [hf])
  have htk : t ∈ keysOf users := (dget_isSome_iff_mem_keys t users).mp (by simp [ht])
  have hacc : ∀ a, dget a (setk t tu' (setk f fu' users)) =
      if a = t then some tu' else if a = f then some fu' else dget a users := by
    intro a
    rw [dget_setk_cases, dget_setk_cases]
  have hkeys : ∀ b, b ∈ keysOf (setk t tu' (setk f fu' users)) ↔ b ∈ keysOf users := by
    intro b
    rw [mem_keys_setk, mem_keys_setk]
    constructor
    · rintro (rfl | rfl | h)
      · exact htk
      · exact hfk
      · exact h
    · exact fun h => Or.inr (Or.inr h)
  refine ⟨nodupKeys_setk (nodupKeys_setk hI.nodup _ _) _ _, ?_, ?_, ?_, ?_, ?_, ?_⟩
  · intro a u hu
    rw [hacc] at hu
    by_cases hat : a = t
    · rw [if_pos hat] at hu
      injection hu with hu; subst hu
      rw [htg]
      exact hI.fwgNodup ht
    · rw [if_neg hat] at hu
      by_cases haf : a = f
      · rw [if_pos haf] at hu
        injection hu with hu; subst hu
        rw [hfg]
        exact (hI.fwgNodup hf).erase t
      · rw [if_neg haf] at hu
        exact hI.fwgNodup hu
  · intro a u hu
    rw [hacc] at hu
    by_cases hat : a = t
    · rw [if_pos hat] at hu
      injection hu with hu; subst hu
      rw [htr]
      exact (hI.fwrNodup ht).erase f
    · rw [if_neg hat] at hu
      by_cases haf : a = f
      · rw [if_pos haf] at hu
        injection hu with hu; subst hu
        rw [hfr]
        exact hI.fwrNodup hf
      · rw [if_neg haf] at hu
        exact hI.fwrNodup hu
  · intro a u hu b hb
    rw [hacc] at hu
    rw [hkeys]
    by_cases hat : a = t
    · rw [if_pos hat] at hu
      injection hu with hu; subst hu
      rw [htg] at hb
      exact hI.fwgClosed ht b hb
    · rw [if_neg hat] at hu
      by_cases haf : a = f
      · rw [if_pos haf] at hu
        injection hu with hu; subst hu
        rw [hfg] at hb
        exact hI.fwgClosed hf b (List.mem_of_mem_erase hb)
      · rw [if_neg haf] at hu
        exact hI.fwgClosed hu b hb
  · intro a u hu b hb
    rw [hacc] at hu
    rw [hkeys]
    by_cases hat : a = t
    · rw [if_pos hat] at hu
      injection hu with hu; subst hu
      rw [htr] at hb
      exact hI.fwrClosed ht b (List.mem_of_mem_erase hb)
    · rw [if_neg hat] at hu
      by_cases haf : a = f
      · rw [if_pos haf] at hu
        injection hu with hu; subst hu
        rw [hfr] at hb
        exact hI.fwrClosed hf b hb
      · rw [if_neg haf] at hu
        exact hI.fwrClosed hu b hb
  · intro a u hu
    rw [hacc] at hu
    by_cases hat : a = t
    · rw [if_pos hat] at hu
      injection hu with hu; subst hu
      rw [htg, hat]
      exact hI.irrefl ht
    · rw [if_neg hat] at hu
      by_cases haf : a = f
      · rw [if_pos haf] at hu
        injection hu with hu; subst hu
        rw [hfg, haf]
        intro hmem
        exact hI.irrefl hf (List.mem_of_mem_erase hmem)
      · rw [if_neg haf] at hu
        exact hI.irrefl hu
  · intro a ua b ub hua hub
    rw [hacc] at hua hub
    by_cases hat : a = t
    · subst hat
      rw [if_pos rfl] at hua
      injection hua with hua; subst hua
      by_cases hbt : b = a
      · subst hbt
        rw [if_pos rfl] at hub
        injection hub with hub; subst hub
        rw [htg, htr, (hI.fwrNodup ht).mem_erase_iff,
          and_iff_right (fun hh : b = f => hft (hh ▸ rfl))]
        exact hI.mirror ht ht
      · rw [if_neg hbt] at hub
        by_cases hbf : b = f
        · subst hbf
          rw [if_pos rfl] at hub
          injection hub with hub; subst hub
          rw [htg, hfr]
          exact hI.mirror ht hf
        · rw [if_neg hbf] at hub
          rw [htg]
          exact hI.mirror ht hub
    · rw [if_neg hat] at hua
      by_cases haf : a = f
      · subst haf
        rw [if_pos rfl] at hua
        injection hua with hua; subst hua
        by_cases hbt : b = t
        · subst hbt
          rw [if_pos rfl] at hub
          injection hub with hub; subst hub
          rw [hfg, htr, (hI.fwgNodup hf).mem_erase_iff,
            (hI.fwrNodup ht).mem_erase_iff]
          simp
        · rw [if_neg hbt] at hub
          by_cases hbf : b = a
          · subst hbf
            rw [if_pos rfl] at hub
            injection hub with hub; subst hub
            rw [hfg, hfr, (hI.fwgNodup hf).mem_erase_iff, and_iff_right hbt]
            exact hI.mirror hf hf
          · rw [if_neg hbf] at hub
            rw [hfg, (hI.fwgNodup hf).mem_erase_iff, and_iff_right hbt]
            exact hI.mirror hf hub
      · rw [if_neg haf] at hua
        by_cases hbt : b = t
        · subst hbt
          rw [if_pos rfl] at hub
          injection hub with hub; subst hub
          rw [htr, (hI.fwrNodup ht).mem_erase_iff, and_iff_right haf]
          exact hI.mirror hua ht
        · rw [if_neg hbt] at hub
          by_cases hbf : b = f
          · subst hbf
            rw [if_pos rfl] at hub
            injection hub with hub; subst hub
            rw [hfr]
            exact hI.mirror hua hf
          · rw [if_neg hbf] at hub
            exact hI.mirror hua hub

theorem inv_create_user {s : SocialStore} (hI : Inv s) (username pw : String) :
    Inv (s.create_user username pw).2 := by
  obtain ⟨hU, hS, hP⟩ := hI
  unfold create_user
  by_cases hg : username = "" ∨ pw = "" ∨ (dget username s.users).isSome
  · rw [if_pos hg]
    exact ⟨hU, hS, hP⟩
  · rw [if_neg hg]
    push_neg at hg
    have hnone : dget username s.users = none := by
      cases h : dget username s.users with
      | none => rfl
      | some u => exact absurd (by simp [h]) hg.2.2
    have hupnone : dget username s.user_posts = none := by
      have hd := hP.dom username
      rw [hnone] at hd
      simp only [Option.isSome_none, Bool.false_eq_true, false_iff] at hd
      cases h : dget username s.user_posts with
      | none => rfl
      | some l => exact absurd (by simp [h]) hd
    have hsd : setdefault username ([] : List String) s.user_posts =
        setk username [] s.user_posts := by
      simp [setdefault, hupnone]
    refine ⟨usersInv_create_user hU hnone _ rfl rfl, hS, ?_⟩
    rw [hsd]
    refine ⟨hP.nodup, ?_, hP.postId, ?_, ?_, ?_⟩
    · intro a
      rw [isSome_dget_setk, isSome_dget_setk]
      exact or_congr Iff.rfl (hP.dom a)
    · intro a l hl pid hpid
      rw [dget_setk_cases] at hl
      by_cases ha : a = username
      · rw [if_pos ha] at hl
        injection hl with hl; subst hl
        simp at hpid
      · rw [if_neg ha] at hl
        exact hP.upSound hl hpid
    · intro pid p hp
      obtain ⟨l, hl, hmem⟩ := hP.upComplete hp
      have hane : p.author ≠ username := by
        intro hh
        rw [hh, hupnone] at hl
        exact Option.noConfusion hl
      exact ⟨l, by rw [dget_setk_ne hane]; exact hl, hmem⟩
    · intro a l hl
      rw [dget_setk_cases] at hl
      by_cases ha : a = username
      · rw [if_pos ha] at hl
        injection hl with hl; subst hl
        simp
      · rw [if_neg ha] at hl
        exact hP.upNodup hl

theorem inv_update_profile {s : SocialStore} (hI : Inv s) (username : String)
    (bio : Option (List Char)) (avatar_path : Option String) :
    Inv (s.update_profile username bio avatar_path).2 := by
  obtain ⟨hU, hS, hP⟩ := hI
  unfold update_profile
  cases hu : dget username s.users with
  | none => exact ⟨hU, hS, hP⟩
  | some u =>
    refine ⟨?_, hS, ?_⟩
    · exact usersInv_update_same hU hu
        (by cases bio <;> cases avatar_path <;> rfl)
        (by cases bio <;> cases avatar_path <;> rfl)
    · refine ⟨hP.nodup, ?_, hP.postId, hP.upSound, hP.upComplete, hP.upNodup⟩
      intro a
      rw [isSome_dget_setk_of_mem (by simp [hu])]
      exact hP.dom a

theorem inv_new_session {s : SocialStore} (hI : Inv s) (username sid csrf : String) :
    Inv (s.new_session username sid csrf).2 := by
  obtain ⟨hU, hS, hP⟩ := hI
  refine ⟨hU, ⟨fun tok => ?_⟩, hP⟩
  show (dget tok (setk sid username s.sessions)).isSome ↔
    (dget tok (setk sid csrf s.csrf_tokens)).isSome
  rw [isSome_dget_setk, isSome_dget_setk]
  exact or_congr Iff.rfl (hS.dom tok)

theorem inv_destroy_session {s : SocialStore} (hI : Inv s) (sid : Option String) :
    Inv (s.destroy_session sid) := by
  obtain ⟨hU, hS, hP⟩ := hI
  cases sid with
  | none => exact ⟨hU, hS, hP⟩
  | some i =>
    show Inv (if i = "" then s
      else { s with sessions := popk i s.sessions, csrf_tokens := popk i s.csrf_tokens })
    by_cases hi : i = ""
    · rw [if_pos hi]
      exact ⟨hU, hS, hP⟩
    · rw [if_neg hi]
      refine ⟨hU, ⟨fun tok => ?_⟩, hP⟩
      show (dget tok (popk i s.sessions)).isSome ↔ (dget tok (popk i s.csrf_tokens)).isSome
      by_cases ht : tok = i
      · subst ht
        rw [dget_popk_self, dget_popk_self]
      · rw [dget_popk_ne ht, dget_popk_ne ht]
        exact hS.dom tok

theorem inv_follow {s : SocialStore} (hI : Inv s) (f t : String) :
    Inv (s.follow f t).2 := by
  obtain ⟨hU, hS, hP⟩ := hI
  unfold follow
  by_cases hft : f = t
  · rw [if_pos hft]
    exact ⟨hU, hS, hP⟩
  · rw [if_neg hft]
    cases hf : dget f s.users with
    | none =>
      cases ht : dget t s.users <;> exact ⟨hU, hS, hP⟩
    | some fu =>
      cases ht : dget t s.users with
      | none => exact ⟨hU, hS, hP⟩
      | some tu =>
        refine ⟨usersInv_follow_aux hU hft hf ht rfl rfl rfl rfl, hS, ?_⟩
        refine ⟨hP.nodup, ?_, hP.postId, hP.upSound, hP.upComplete, hP.upNodup⟩
        intro a
        rw [isSome_dget_setk_of_mem
          (by rw [isSome_dget_setk]; exact Or.inr (by simp [ht]))]
        rw [isSome_dget_setk_of_mem (by simp [hf])]
        exact hP.dom a

theorem inv_unfollow {s : SocialStore} (hI : Inv s) (f t : String) :
    Inv (s.unfollow f t).2 := by
  obtain ⟨hU, hS, hP⟩ := hI
  unfold unfollow
  by_cases hg : (dget f s.users).isNone ∨ (dget t s.users).isNone
  · rw [if_pos hg]
    exact ⟨hU, hS, hP⟩
  · rw [if_neg hg]
    push_neg at hg
    obtain ⟨fu, hf⟩ : ∃ fu, dget f s.users = some fu := by
      cases h : dget f s.users with
      | none => exact absurd (by simp [h]) hg.1
      | some fu => exact ⟨fu, rfl⟩
    simp only [hf]
    by_cases hft : f = t
    · subst hft
      simp only [dget_setk_self]
      rw [setk_setk_self]
      refine ⟨usersInv_unfollow_self hU hf rfl rfl, hS, ?_⟩
      refine ⟨hP.nodup, ?_, hP.postId, hP.upSound, hP.upComplete, hP.upNodup⟩
      intro a
      rw [isSome_dget_setk_of_mem (by simp [hf])]
      exact hP.dom a
    · obtain ⟨tu, ht⟩ : ∃ tu, dget t s.users = some tu := by
        cases h : dget t s.users with
        | none => exact absurd (by simp [h]) hg.2
        | some tu => exact ⟨tu, rfl⟩
      simp only [dget_setk_ne (Ne.symm hft), ht]
      refine ⟨usersInv_unfollow_aux hU hft hf ht rfl rfl rfl rfl, hS, ?_⟩
      refine ⟨hP.nodup, ?_, hP.postId, hP.upSound, hP.upComplete, hP.upNodup⟩
      intro a
      rw [isSome_dget_setk_of_mem
        (by rw [isSome_dget_setk]; exact Or.inr (by simp [ht]))]
      rw [isSome_dget_setk_of_mem (by simp [hf])]
      exact hP.dom a

theorem inv_create_post {s : SocialStore} (hI : Inv s) (author : String)
    (text : List Char) (image_url : Option String) (pid : String) (ts : ℚ)
    (hfresh : dget pid s.posts = none) :
    Inv (s.create_post author text image_url pid ts).2 := by
  obtain ⟨hU, hS, hP⟩ := hI
  unfold create_post
  by_cases hg : (dget author s.users).isNone ∨ (text = [] ∧ image_url.getD "" = "")
  · rw [if_pos hg]
    exact ⟨hU, hS, hP⟩
  · rw [if_neg hg]
    push_neg at hg
    have hauth : (dget author s.users).isSome := by
      cases h : dget author s.users with
      | none => exact absurd (by simp [h]) hg.1
      | some u => simp
    have hupS : (dget author s.user_posts).isSome := (hP.dom author).mp hauth
    obtain ⟨la, hla⟩ := Option.isSome_iff_exists.mp hupS
    simp only [hla, Option.getD_some]
    refine ⟨hU, hS, ?_⟩
    refine ⟨nodupKeys_setk hP.nodup _ _, ?_, ?_, ?_, ?_, ?_⟩
    · intro a
      rw [isSome_dget_setk_of_mem hupS]
      exact hP.dom a
    · intro pid' p' hp'
      rw [dget_setk_cases] at hp'
      by_cases h : pid' = pid
      · rw [if_pos h] at hp'
        injection hp' with hp'
        subst hp'
        exact h.symm
      · rw [if_neg h] at hp'
        exact hP.postId hp'
    · intro a l hl pid' hpid'
      rw [dget_setk_cases] at hl
      by_cases ha : a = author
      · rw [if_pos ha] at hl
        injection hl with hl
        subst hl
        rcases List.mem_cons.mp hpid' with rfl | hm
        · refine ⟨_, dget_setk_self pid' _ _, ?_⟩
          exact ha.symm
        · obtain ⟨p, hp, hpa⟩ := hP.upSound hla hm
          have hne : pid' ≠ pid := by
            intro hh
            rw [hh, hfresh] at hp
            exact Option.noConfusion hp
          exact ⟨p, by rw [dget_setk_ne hne]; exact hp, ha ▸ hpa⟩
      · rw [if_neg ha] at hl
        obtain ⟨p, hp, hpa⟩ := hP.upSound hl hpid'
        have hne : pid' ≠ pid := by
          intro hh
          rw [hh, hfresh] at hp
          exact Option.noConfusion hp
        exact ⟨p, by rw [dget_setk_ne hne]; exact hp, hpa⟩
    · intro pid' p' hp'
      rw [dget_setk_cases] at hp'
      by_cases h : pid' = pid
      · rw [if_pos h] at hp'
        injection hp' with hp'
        subst hp'
        refine ⟨pid :: la, ?_, by simp [h]⟩
        show dget author (setk author (pid :: la) s.user_posts) = some (pid :: la)
        exact dget_setk_self author _ _
      · rw [if_neg h] at hp'
        obtain ⟨l, hl, hmem⟩ := hP.upComplete hp'
        by_cases ha : p'.author = author
        · rw [ha, hla] at hl
          injection hl with hl
          subst hl
          refine ⟨pid :: la, ?_, List.mem_cons_of_mem pid hmem⟩
          rw [ha]
          exact dget_setk_self author _ _
        · exact ⟨l, by rw [dget_setk_ne ha]; exact hl, hmem⟩
    · intro a l hl
      rw [dget_setk_cases] at hl
      by_cases ha : a = author
      · rw [if_pos ha] at hl
        injection hl with hl
        subst hl
        refine List.Nodup.cons ?_ (hP.upNodup hla)
        intro hmem
        obtain ⟨p, hp, _⟩ := hP.upSound hla hmem
        rw [hfresh] at hp
        exact Option.noConfusion hp
      · rw [if_neg ha] at hl
        exact hP.upNodup hl

theorem inv_toggle_like {s : SocialStore} (hI : Inv s) (pid username : String) :
    Inv (s.toggle_like pid username).2 := by
  obtain ⟨hU, hS, hP⟩ := hI
  unfold toggle_like
  obtain hnone | ⟨p, hp⟩ : dget pid s.posts = none ∨ ∃ p, dget pid s.posts = some p := by
    cases dget pid s.posts
    · exact Or.inl rfl
    · exact Or.inr ⟨_, rfl⟩
  · simp only [hnone]
    exact ⟨hU, hS, hP⟩
  · simp only [hp]
    by_cases hu : (dget username s.users).isNone
    · rw [if_pos hu]
      exact ⟨hU, hS, hP⟩
    · rw [if_neg hu]
      refine ⟨hU, hS, ?_⟩
      refine ⟨nodupKeys_setk hP.nodup _ _, hP.dom, ?_, ?_, ?_, hP.upNodup⟩
      · intro pid' p' hp'
        rw [dget_setk_cases] at hp'
        by_cases h : pid' = pid
        · rw [if_pos h] at hp'
          injection hp' with hp'
          subst hp'
          show p.id = pid'
          rw [hP.postId hp, h]
        · rw [if_neg h] at hp'
          exact hP.postId hp'
      · intro a l hl pid' hpid'
        obtain ⟨q, hq, hqa⟩ := hP.upSound hl hpid'
        by_cases h : pid' = pid
        · subst h
          rw [hp] at hq
          injection hq with hq
          subst hq
          refine ⟨_, dget_setk_self pid' _ _, hqa⟩
        · exact ⟨q, by rw [dget_setk_cases, if_neg h]; exact hq, hqa⟩
      · intro pid' p' hp'
        rw [dget_setk_cases] at hp'
        by_cases h : pid' = pid
        · rw [if_pos h] at hp'
          injection hp' with hp'
          subst hp'
          obtain ⟨l, hl, hmem⟩ := hP.upComplete hp
          exact ⟨l, hl, h ▸ hmem⟩
        · rw [if_neg h] at hp'
          exact hP.upComplete hp'

theorem inv_add_comment {s : SocialStore} (hI : Inv s) (pid author : String)
    (text : List Char) (ts : ℚ) : Inv (s.add_comment pid author text ts).2 := by
  obtain ⟨hU, hS, hP⟩ := hI
  unfold add_comment
  obtain hnone | ⟨p, hp⟩ : dget pid s.posts = none ∨ ∃ p, dget pid s.posts = some p := by
    cases dget pid s.posts
    · exact Or.inl rfl
    · exact Or.inr ⟨_, rfl⟩
  · simp only [hnone]
    exact ⟨hU, hS, hP⟩
  · simp only [hp]
    by_cases hu : (dget author s.users).isNone ∨ text = []
    · rw [if_pos hu]
      exact ⟨hU, hS, hP⟩
    · rw [if_neg hu]
      refine ⟨hU, hS, ?_⟩
      refine ⟨nodupKeys_setk hP.nodup _ _, hP.dom, ?_, ?_, ?_, hP.upNodup⟩
      · intro pid' p' hp'
        rw [dget_setk_cases] at hp'
        by_cases h : pid' = pid
        · rw [if_pos h] at hp'
          injection hp' with hp'
          subst hp'
          show p.id = pid'
          rw [hP.postId hp, h]
        · rw [if_neg h] at hp'
          exact hP.postId hp'
      · intro a l hl pid' hpid'
        obtain ⟨q, hq, hqa⟩ := hP.upSound hl hpid'
        by_cases h : pid' = pid
        · subst h
          rw [hp] at hq
          injection hq with hq
          subst hq
          refine ⟨_, dget_setk_self pid' _ _, hqa⟩
        · exact ⟨q, by rw [dget_setk_cases, if_neg h]; exact hq, hqa⟩
      · intro pid' p' hp'
        rw [dget_setk_cases] at hp'
        by_cases h : pid' = pid
        · rw [if_pos h] at hp'
          injection hp' with hp'
          subst hp'
          obtain ⟨l, hl, hmem⟩ := hP.upComplete hp
          exact ⟨l, hl, h ▸ hmem⟩
        · rw [if_neg h] at hp'
          exact hP.upComplete hp'

/-- Every reachable store satisfies all invariants. -/
theorem reachable_inv {s : SocialStore} (h : Reachable s) : Inv s := by
  induction h with
  | init => exact inv_init
  | create_user username pw _ ih => exact inv_create_user ih username pw
  | update_profile username bio avatar_path _ ih =>
    exact inv_update_profile ih username bio avatar_path
  | new_session username sid csrf _ ih => exact inv_new_session ih username sid csrf
  | destroy_session sid _ ih => exact inv_destroy_session ih sid
  | follow follower target _ ih => exact inv_follow ih follower target
  | unfollow follower target _ ih => exact inv_unfollow ih follower target
  | create_post author text image_url pid ts _ hfresh ih =>
    exact inv_create_post ih author text image_url pid ts hfresh
  | toggle_like pid username _ ih => exact inv_toggle_like ih pid username
  | add_comment pid author text ts _ ih => exact inv_add_comment ih pid author text ts

theorem tsDesc_sorted (l : List Post) :
    (l.mergeSort tsDesc).Pairwise (fun p q => q.ts ≤ p.ts) := by
  have h := @List.sorted_mergeSort Post tsDesc
    (fun a b c hab hbc => by
      simp only [tsDesc, decide_eq_true_eq] at hab hbc ⊢
      exact le_trans hbc hab)
    (fun a b => by
      simp only [tsDesc]
      rcases le_total b.ts a.ts with h | h <;> simp [h]) l
  exact h.imp (fun hb => by simpa [tsDesc] using hb)

/-- The multiset of values of the post map, with unique keys and `id = key`,
has no duplicates. -/
theorem values_nodup {posts : List (String × Post)} (hn : NodupKeys posts)
    (hid : ∀ {pid p}, dget pid posts = some p → p.id = pid) :
    (posts.map Prod.snd).Nodup := by
  have hcongr : keysOf posts = posts.map (fun e => (Prod.snd e).id) := by
    apply List.map_congr_left
    intro e he
    obtain ⟨k, p⟩ := e
    exact (hid (dget_of_mem hn he)).symm
  have h2 : (posts.map (fun e => (Prod.snd e).id)).Nodup := hcongr ▸ hn
  rw [show (fun e : String × Post => (Prod.snd e).id) = Post.id ∘ Prod.snd from rfl,
    ← List.map_map] at h2
  exact h2.of_map Post.id

/-- The list of posts gathered by `feed_for` before sorting. -/
def gatherFeed (s : SocialStore) (authors : List String) : List Post :=
  (authors.flatMap (fun a => (dget a s.user_posts).getD [])).filterMap
    (fun i => dget i s.posts)

theorem feed_for_eq_mergeSort {s : SocialStore} {u : String} {uu : User}
    (hu : dget u s.users = some uu) :
    s.feed_for u = (gatherFeed s (uu.following.insert u)).mergeSort tsDesc := by
  unfold feed_for gatherFeed
  simp only [hu]

theorem gatherFeed_nodup {s : SocialStore} (hI : Inv s) {uu : User} {u : String}
    (hu : dget u s.users = some uu) :
    (gatherFeed s (uu.following.insert u)).Nodup := by
  obtain ⟨hU, _, hP⟩ := hI
  apply List.Nodup.filterMap
  · intro i j p hi hj
    have h1 : p.id = i := hP.postId hi
    have h2 : p.id = j := hP.postId hj
    rw [← h1, h2]
  · rw [List.nodup_flatMap]
    constructor
    · intro a _
      cases hla : dget a s.user_posts with
      | none => simp
      | some la => simpa using hP.upNodup hla
    · have hnd : (uu.following.insert u).Nodup := (hU.fwgNodup hu).insert
      refine List.Pairwise.imp ?_ hnd
      intro a b hne i hia hib
      cases hla : dget a s.user_posts with
      | none => simp [hla] at hia
      | some la =>
        cases hlb : dget b s.user_posts with
        | none => simp [hlb] at hib
        | some lb =>
          simp only [hla, hlb, Option.getD_some] at hia hib
          obtain ⟨p, hp, hpa⟩ := hP.upSound hla hia
          obtain ⟨q, hq, hqb⟩ := hP.upSound hlb hib
          rw [hp] at hq
          injection hq with hq
          subst hq
          exact hne (hpa ▸ hqb ▸ rfl)

theorem gatherFeed_perm {s : SocialStore} (hI : Inv s) {u : String} {uu : User}
    (hu : dget u s.users = some uu) :
    (gatherFeed s (uu.following.insert u)).Perm
      ((s.posts.map Prod.snd).filter (fun p => p.author ∈ uu.following.insert u)) := by
  have hP : PostsInv s.users s.posts s.user_posts := hI.2.2
  rw [List.perm_ext_iff_of_nodup (gatherFeed_nodup hI hu)
    ((values_nodup hP.nodup hP.postId).filter _)]
  intro p
  unfold gatherFeed
  rw [List.mem_filterMap, List.mem_filter]
  constructor
  · rintro ⟨i, hi, hp⟩
    rw [List.mem_flatMap] at hi
    obtain ⟨a, ha, hia⟩ := hi
    cases hla : dget a s.user_posts with
    | none => simp [hla] at hia
    | some la =>
      simp only [hla, Option.getD_some] at hia
      obtain ⟨q, hq, hqa⟩ := hP.upSound hla hia
      rw [hp] at hq
      injection hq with hq
      subst hq
      refine ⟨List.mem_map_of_mem Prod.snd (mem_of_dget hp), ?_⟩
      simp only [decide_eq_true_eq]
      exact hqa ▸ ha
  · rintro ⟨hmem, hauth⟩
    simp only [decide_eq_true_eq] at hauth
    rw [List.mem_map] at hmem
    obtain ⟨⟨i, p'⟩, hip, hp'⟩ := hmem
    simp only at hp'
    subst hp'
    have hdi : dget i s.posts = some p' := dget_of_mem hP.nodup hip
    obtain ⟨l, hl, hil⟩ := hP.upComplete hdi
    refine ⟨i, ?_, hdi⟩
    rw [List.mem_flatMap]
    refine ⟨p'.author, hauth, ?_⟩
    rw [hl]
    simpa using hil

theorem opt_cases (o : Option α) : o = none ∨ ∃ a, o = some a := by
  cases o
  · exact Or.inl rfl
  · exact Or.inr ⟨_, rfl⟩

theorem create_user_fail {s : SocialStore} {u pw : String}
    (h : (s.create_user u pw).1 = false) : (s.create_user u pw).2 = s := by
  unfold create_user at h ⊢
  by_cases hg : u = "" ∨ pw = "" ∨ (dget u s.users).isSome
  · rw [if_pos hg]
  · rw [if_neg hg] at h
    simp at h

theorem update_profile_fail {s : SocialStore} {u : String} {bio : Option (List Char)}
    {av : Option String} (h : (s.update_profile u bio av).1 = false) :
    (s.update_profile u bio av).2 = s := by
  unfold update_profile at h ⊢
  rcases opt_cases (dget u s.users) with hu | ⟨uu, hu⟩
  · simp only [hu]
  · simp only [hu] at h
    simp at h

theorem follow_fail {s : SocialStore} {a b : String}
    (h : (s.follow a b).1 = false) : (s.follow a b).2 = s := by
  unfold follow at h ⊢
  by_cases hab : a = b
  · rw [if_pos hab]
  · rw [if_neg hab] at h ⊢
    rcases opt_cases (dget a s.users) with ha | ⟨fu, ha⟩ <;>
      rcases opt_cases (dget b s.users) with hb | ⟨tu, hb⟩ <;>
        simp only [ha, hb] at h ⊢
    simp at h

theorem follow_true {s : SocialStore} {a b : String}
    (h : (s.follow a b).1 = true) :
    ∃ fu tu, a ≠ b ∧ dget a s.users = some fu ∧ dget b s.users = some tu ∧
      (s.follow a b).2 = { s with
        users := setk b { tu with followers := tu.followers.insert a }
          (setk a { fu with following := fu.following.insert b } s.users) } := by
  unfold follow at h ⊢
  by_cases hab : a = b
  · rw [if_pos hab] at h
    simp at h
  · rw [if_neg hab] at h ⊢
    rcases opt_cases (dget a s.users) with ha | ⟨fu, ha⟩ <;>
      rcases opt_cases (dget b s.users) with hb | ⟨tu, hb⟩ <;>
        simp only [ha, hb] at h ⊢
    · simp at h
    · simp at h
    · simp at h
    · exact ⟨fu, tu, hab, rfl, rfl, rfl⟩

theorem unfollow_fail {s : SocialStore} {a b : String}
    (h : (s.unfollow a b).1 = false) : (s.unfollow a b).2 = s := by
  unfold unfollow at h ⊢
  by_cases hg : (dget a s.users).isNone ∨ (dget b s.users).isNone
  · rw [if_pos hg]
  · rw [if_neg hg] at h
    simp at h

theorem create_post_fail {s : SocialStore} {author : String} {text : List Char}
    {img : Option String} {pid : String} {ts : ℚ}
    (h : (s.create_post author text img pid ts).1 = none) :
    (s.create_post author text img pid ts).2 = s := by
  unfold create_post at h ⊢
  by_cases hg : (dget author s.users).isNone ∨ (text = [] ∧ img.getD "" = "")
  · rw [if_pos hg]
  · rw [if_neg hg] at h
    simp at h

theorem toggle_like_fail {s : SocialStore} {pid u : String}
    (h : (s.toggle_like pid u).1 = false) : (s.toggle_like pid u).2 = s := by
  unfold toggle_like at h ⊢
  rcases opt_cases (dget pid s.posts) with hp | ⟨p, hp⟩ <;> simp only [hp] at h ⊢
  by_cases hu : (dget u s.users).isNone = true
  · rw [if_pos hu]
  · rw [if_neg hu] at h
    simp at h

theorem add_comment_fail {s : SocialStore} {pid a : String} {text : List Char} {ts : ℚ}
    (h : (s.add_comment pid a text ts).1 = false) : (s.add_comment pid a text ts).2 = s := by
  unfold add_comment at h ⊢
  rcases opt_cases (dget pid s.posts) with hp | ⟨p, hp⟩ <;> simp only [hp] at h ⊢
  by_cases hu : (dget a s.users).isNone = true ∨ text = []
  · rw [if_pos hu]
  · rw [if_neg hu] at h
    simp at h

/-- The post with the like set flipped, as built by `toggle_like`. -/
def toggledPost (p : Post) (username : String) : Post :=
  { p with likes := if username ∈ p.likes then p.likes.erase username
                    else insert username p.likes }

/-- The post with one comment appended, as built by `add_comment`. -/
def commentedPost (p : Post) (author : String) (text : List Char) (ts : ℚ) : Post :=
  { p with comments := p.comments ++ [{ author := author, text := text.take 200, ts := ts }] }

theorem toggle_like_some {s : SocialStore} {pid username : String} {p : Post}
    (hp : dget pid s.posts = some p) (hu : (dget username s.users).isSome) :
    s.toggle_like pid username =
      (true, { s with posts := setk pid (toggledPost p username) s.posts }) := by
  obtain ⟨uu, huu⟩ := Option.isSome_iff_exists.mp hu
  unfold toggle_like toggledPost
  simp only [hp, huu, Option.isNone_some, Bool.false_eq_true, if_false]

theorem add_comment_some {s : SocialStore} {pid author : String} {text : List Char}
    {ts : ℚ} {p : Post} (hp : dget pid s.posts = some p)
    (hu : (dget author s.users).isSome) (htext : text ≠ []) :
    s.add_comment pid author text ts =
      (true, { s with posts := setk pid (commentedPost p author text ts) s.posts }) := by
  obtain ⟨uu, huu⟩ := Option.isSome_iff_exists.mp hu
  unfold add_comment commentedPost
  simp only [hp, huu, Option.isNone_some]
  rw [if_neg (by simp [htext])]

theorem create_user_posts (s : SocialStore) (u pw : String) :
    (s.create_user u pw).2.posts = s.posts := by
  unfold create_user
  by_cases hg : u = "" ∨ pw = "" ∨ (dget u s.users).isSome
  · rw [if_pos hg]
  · rw [if_neg hg]

theorem update_profile_posts (s : SocialStore) (u : String) (bio : Option (List Char))
    (av : Option String) : (s.update_profile u bio av).2.posts = s.posts := by
  unfold update_profile
  rcases opt_cases (dget u s.users) with hu | ⟨uu, hu⟩ <;> simp only [hu]

theorem new_session_posts (s : SocialStore) (u sid c : String) :
    (s.new_session u sid c).2.posts = s.posts := rfl

theorem destroy_session_posts (s : SocialStore) (sid : Option String) :
    (s.destroy_session sid).posts = s.posts := by
  unfold destroy_session
  cases sid with
  | none => rfl
  | some i =>
    show SocialStore.posts (if i = "" then s else
      { s with sessions := popk i s.sessions, csrf_tokens := popk i s.csrf_tokens })
      = s.posts
    by_cases hi : i = ""
    · rw [if_pos hi]
    · rw [if_neg hi]

theorem follow_posts (s : SocialStore) (a b : String) :
    (s.follow a b).2.posts = s.posts := by
  unfold follow
  by_cases hab : a = b
  · rw [if_pos hab]
  · rw [if_neg hab]
    rcases opt_cases (dget a s.users) with ha | ⟨fu, ha⟩ <;>
      rcases opt_cases (dget b s.users) with hb | ⟨tu, hb⟩ <;>
        simp only [ha, hb]

theorem unfollow_posts (s : SocialStore) (a b : String) :
    (s.unfollow a b).2.posts = s.posts := by
  unfold unfollow
  by_cases hg : (dget a s.users).isNone ∨ (dget b s.users).isNone
  · rw [if_pos hg]
  · rw [if_neg hg]

theorem unfollow_true_not {s : SocialStore} (hI : Inv s) {a b : String}
    (h : (s.unfollow a b).1 = true) :
    ∃ fu2 tu2, dget a (s.unfollow a b).2.users = some fu2 ∧
      dget b (s.unfollow a b).2.users = some tu2 ∧
      b ∉ fu2.following ∧ a ∉ tu2.followers := by
  unfold unfollow at h ⊢
  by_cases hg : (dget a s.users).isNone ∨ (dget b s.users).isNone
  · rw [if_pos hg] at h
    simp at h
  · rw [if_neg hg] at h ⊢
    push_neg at hg
    obtain ⟨fu, hf⟩ : ∃ fu, dget a s.users = some fu := by
      rcases opt_cases (dget a s.users) with h' | hh
      · exact absurd (by simp [h']) hg.1
      · exact hh
    simp only [hf]
    by_cases hab : a = b
    · subst hab
      simp only [dget_setk_self]
      refine ⟨_, _, rfl, rfl, ?_, ?_⟩
      · intro hm
        exact (((hI.1.fwgNodup hf).mem_erase_iff).mp hm).1 rfl
      · intro hm
        exact (((hI.1.fwrNodup hf).mem_erase_iff).mp hm).1 rfl
    · obtain ⟨tu, ht⟩ : ∃ tu, dget b s.users = some tu := by
        rcases opt_cases (dget b s.users) with h' | hh
        · exact absurd (by simp [h']) hg.2
        · exact hh
      simp only [dget_setk_ne (Ne.symm hab), ht]
      refine ⟨{ fu with following := fu.following.erase b },
        { tu with followers := tu.followers.erase a }, ?_, dget_setk_self b _ _, ?_, ?_⟩
      · rw [dget_setk_ne hab]
        exact dget_setk_self a _ _
      · intro hm
        exact (((hI.1.fwgNodup hf).mem_erase_iff).mp hm).1 rfl
      · intro hm
        exact (((hI.1.fwrNodup ht).mem_erase_iff).mp hm).1 rfl

theorem one_le_hours_cast (now : ℚ) (p : Post) :
    (1:ℝ) ≤ ((max 1 ((now - p.ts) / 3600) : ℚ) : ℝ) := by
  rw [show (1:ℝ) = ((1:ℚ):ℝ) by norm_num, Rat.cast_le]
  exact le_max_left 1 _

theorem score_antitone (p : Post) {now1 now2 : ℚ} (h : now1 ≤ now2) :
    score now2 p ≤ score now1 p := by
  unfold score
  have h1 := one_le_hours_cast now1 p
  have h2 := one_le_hours_cast now2 p
  have hmono : ((max 1 ((now1 - p.ts) / 3600) : ℚ) : ℝ) ≤
      ((max 1 ((now2 - p.ts) / 3600) : ℚ) : ℝ) := by
    rw [Rat.cast_le]
    refine max_le_max le_rfl ?_
    have h3600 : (0:ℚ) < 3600 := by norm_num
    rw [div_le_div_iff_of_pos_right h3600]
    linarith
  have hd : ((max 1 ((now1 - p.ts) / 3600) : ℚ) : ℝ) ^ (0.7:ℝ) ≤
      ((max 1 ((now2 - p.ts) / 3600) : ℚ) : ℝ) ^ (0.7:ℝ) :=
    Real.rpow_le_rpow (by linarith) hmono (by norm_num)
  have hpos : (0:ℝ) < ((max 1 ((now1 - p.ts) / 3600) : ℚ) : ℝ) ^ (0.7:ℝ) :=
    Real.rpow_pos_of_pos (by linarith) _
  exact div_le_div_of_nonneg_left (Nat.cast_nonneg _) hpos hd

theorem score_strict (p : Post) {now1 now2 : ℚ} (h1 : now1 - p.ts = 3600)
    (h2 : now2 - p.ts = 36000) : score now2 p < score now1 p := by
  unfold score
  have e1 : (max 1 ((now1 - p.ts) / 3600) : ℚ) = 1 := by
    rw [h1]
    norm_num
  have e2 : (max 1 ((now2 - p.ts) / 3600) : ℚ) = 10 := by
    rw [h2]
    norm_num
  rw [e1, e2, Rat.cast_one, Real.one_rpow, div_one]
  have hb : (1:ℝ) < ((10:ℚ):ℝ) ^ (0.7:ℝ) := by
    rw [Real.one_lt_rpow_iff_of_pos (by norm_num)]
    norm_num
  have hnum : (0:ℝ) < ((p.likes.card * 3 + p.comments.length * 2 + 1 : ℕ) : ℝ) := by
    rw [Nat.cast_pos]
    omega
  exact div_lt_self hnum hb

theorem scoreDesc_sorted (s : SocialStore) (now : ℚ) :
    (s.trending now).Pairwise (fun a b => score now b ≤ score now a) := by
  have h := @List.sorted_mergeSort Post (fun a b : Post => decide (score now b ≤ score now a))
    (fun a b c hab hbc => by
      simp only [decide_eq_true_eq] at hab hbc ⊢
      exact le_trans hbc hab)
    (fun a b => by
      rcases le_total (score now b) (score now a) with h | h <;> simp [h])
    (s.posts.map Prod.snd)
  exact h.imp (fun hb => by simpa using hb)

theorem ceil_div_eq (N per : ℕ) (hper : 0 < per) :
    ((N + per - 1) / per : ℕ) = ⌈(N:ℚ) / (per:ℚ)⌉₊ := by
  rcases Nat.eq_zero_or_pos N with hN | hN
  · subst hN
    rw [Nat.zero_add, Nat.div_eq_of_lt (by omega)]
    simp
  · have e := Nat.div_add_mod (N + per - 1) per
    have hr := Nat.mod_lt (N + per - 1) hper
    set q := (N + per - 1) / per with hqdef
    set r := (N + per - 1) % per with hrdef
    have hq0 : q ≠ 0 := by
      intro hq
      rw [hq, Nat.mul_zero, Nat.zero_add] at e
      omega
    have hq1 : 1 ≤ q := Nat.one_le_iff_ne_zero.mpr hq0
    have ecast : (per:ℚ) * q + r = (N:ℚ) + per - 1 := by
      have : ((per * q + r : ℕ) : ℚ) = ((N + per - 1 : ℕ) : ℚ) := by rw [e]
      push_cast [Nat.cast_sub (by omega : 1 ≤ N + per)] at this
      linarith
    have hrq : (r:ℚ) + 1 ≤ (per:ℚ) := by
      have : (r:ℕ) + 1 ≤ per := hr
      exact_mod_cast this
    have hperQ : (0:ℚ) < (per:ℚ) := by exact_mod_cast hper
    symm
    rw [Nat.ceil_eq_iff hq0]
    constructor
    · rw [lt_div_iff hperQ]
      push_cast [Nat.cast_sub hq1]
      nlinarith [ecast, hrq]
    · rw [div_le_iff hperQ]
      push_cast
      nlinarith [ecast, hrq, (show (0:ℚ) ≤ (r:ℚ) from Nat.cast_nonneg r)]

theorem toggle_like_true {s : SocialStore} {pid u : String}
    (h : (s.toggle_like pid u).1 = true) :
    ∃ q, dget pid s.posts = some q ∧ (dget u s.users).isSome ∧
      (s.toggle_like pid u).2 = { s with posts := setk pid (toggledPost q u) s.posts } := by
  rcases opt_cases (dget pid s.posts) with hp | ⟨q, hp⟩
  · unfold toggle_like at h
    simp [hp] at h
  · by_cases hu : (dget u s.users).isSome
    · exact ⟨q, hp, hu, by rw [toggle_like_some hp hu]⟩
    · unfold toggle_like at h
      simp only [hp] at h
      rw [if_pos (by simp [Option.not_isSome_iff_eq_none.mp hu])] at h
      simp at h

theorem add_comment_true {s : SocialStore} {pid a : String} {text : List Char} {ts : ℚ}
    (h : (s.add_comment pid a text ts).1 = true) :
    ∃ q, dget pid s.posts = some q ∧ (dget a s.users).isSome ∧ text ≠ [] ∧
      (s.add_comment pid a text ts).2 =
        { s with posts := setk pid (commentedPost q a text ts) s.posts } := by
  rcases opt_cases (dget pid s.posts) with hp | ⟨q, hp⟩
  · unfold add_comment at h
    simp [hp] at h
  · by_cases hu : (dget a s.users).isSome ∧ text ≠ []
    · exact ⟨q, hp, hu.1, hu.2, by rw [add_comment_some hp hu.1 hu.2]⟩
    · unfold add_comment at h
      simp only [hp] at h
      rw [if_pos ?_] at h
      · simp at h
      · rcases Decidable.not_and_iff_or_not.mp hu with hu1 | hu2
        · exact Or.inl (by simp [Option.not_isSome_iff_eq_none.mp hu1])
        · exact Or.inr (by simpa using hu2)

theorem create_post_posts_frame {s : SocialStore} {author : String} {text : List Char}
    {img : Option String} {pid : String} {ts : ℚ} (hfresh : dget pid s.posts = none)
    {pid' : String} {p : Post} (hp' : dget pid' s.posts = some p) :
    dget pid' (s.create_post author text img pid ts).2.posts = some p := by
  unfold create_post
  by_cases hg : (dget author s.users).isNone ∨ (text = [] ∧ img.getD "" = "")
  · rw [if_pos hg]
    exact hp'
  · rw [if_neg hg]
    have hne : pid' ≠ pid := by
      intro hh
      rw [hh, hfresh] at hp'
      exact Option.noConfusion hp'
    show dget pid' (setk pid _ s.posts) = some p
    rw [dget_setk_ne hne]
    exact hp'

/-- A store with one registered user "alice". -/
def st1 : SocialStore := (SocialStore.create_user {} "alice" "pw").2

/-- `st1` plus a second user "bob". -/
def st2 : SocialStore := (st1.create_user "bob" "pw2").2

/-- `st2` after "alice" follows "bob". -/
def st3 : SocialStore := (st2.follow "alice" "bob").2

/-- `st1` plus one post by "alice". -/
def stp : SocialStore := (st1.create_post "alice" "hi".data none "p1" 0).2

/-- The post stored in `stp`. -/
def post1 : Post := { id := "p1", author := "alice", text := "hi".data, ts := 0 }

/-- The record of "alice" in `st3`. -/
def aliceSt3 : User :=
  { username := "alice", password_hash := demo_hash "pw", following := ["bob"] }

theorem reach_st1 : Reachable st1 :=
  Reachable.create_user "alice" "pw" Reachable.init

theorem reach_st3 : Reachable st3 :=
  Reachable.follow "alice" "bob"
    (Reachable.create_user "bob" "pw2" (Reachable.create_user "alice" "pw" Reachable.init))

theorem reach_stp : Reachable stp :=
  Reachable.create_post "alice" "hi".data none "p1" 0 reach_st1 (by decide)

/-- C1: in every store state reachable by the core operations the follow
relation is mirrored (`B ∈ A.following ↔ A ∈ B.followers` for all existing
users) and irreflexive; `follow(A,A)` returns false for any existing `A`;
after a successful `follow(A,B)` both mirrored entries hold, and after a
successful `unfollow(A,B)` neither holds. -/
theorem claim_C1 (s : SocialStore) (hs : Reachable s) :
    (∀ a ua b ub, dget a s.users = some ua → dget b s.users = some ub →
      (b ∈ ua.following ↔ a ∈ ub.followers)) ∧
    (∀ a ua, dget a s.users = some ua → a ∉ ua.following) ∧
    (∀ a, (dget a s.users).isSome → (s.follow a a).1 = false) ∧
    (∀ a b, (s.follow a b).1 = true →
      ∃ ua ub, dget a (s.follow a b).2.users = some ua ∧
        dget b (s.follow a b).2.users = some ub ∧
        b ∈ ua.following ∧ a ∈ ub.followers) ∧
    (∀ a b, (s.unfollow a b).1 = true →
      ∃ ua ub, dget a (s.unfollow a b).2.users = some ua ∧
        dget b (s.unfollow a b).2.users = some ub ∧
        b ∉ ua.following ∧ a ∉ ub.followers) := by
  have hI := reachable_inv hs
  refine ⟨fun a ua b ub hua hub => hI.1.mirror hua hub,
    fun a ua hua => hI.1.irrefl hua, ?_, ?_, fun a b h => unfollow_true_not hI h⟩
  · intro a _
    unfold follow
    rw [if_pos rfl]
  · intro a b h
    obtain ⟨fu, tu, hab, hf, ht, heq⟩ := follow_true h
    rw [heq]
    refine ⟨{ fu with following := fu.following.insert b },
      { tu with followers := tu.followers.insert a }, ?_, dget_setk_self b _ _, ?_, ?_⟩
    · show dget a (setk b _ (setk a _ s.users)) = _
      rw [dget_setk_ne hab]
      exact dget_setk_self a _ _
    · exact List.mem_insert_self b _
    · exact List.mem_insert_self a _

theorem claim_C1_witness :
    Reachable st3 ∧ (st3.follow "alice" "alice").1 = false :=
  ⟨reach_st3, (claim_C1 st3 reach_st3).2.2.1 "alice" (by decide)⟩

/-- C2: `extract_tags_mentions` computes, for `#` and `@` alike, exactly the
lower-cased captures of the spec rule "symbol not preceded by a word
character, followed by 1–30 word characters `[a-zA-Z0-9_]`,
case-insensitively" (the positional scan `posSym`); `foo#bar` yields no
hashtag, `(#bar` yields `bar`, and a post created from
`"Hello #World @Bob"` has hashtags `{"world"}` and mentions `{"bob"}`. -/
theorem claim_C2 :
    (∀ text : List Char, extract_tags_mentions text =
      ((posSym '#' false text).toFinset, (posSym '@' false text).toFinset)) ∧
    extract_tags_mentions "Hello #World @Bob".data = ({"world"}, {"bob"}) ∧
    extract_tags_mentions "foo#bar".data = (∅, ∅) ∧
    extract_tags_mentions "(#bar".data = ({"bar"}, ∅) ∧
    dget "p1" ((st1.create_post "alice" "Hello #World @Bob".data none "p1" 0).2.posts) =
      some { id := "p1", author := "alice", text := "Hello #World @Bob".data, ts := 0,
             hashtags := {"world"}, mentions := {"bob"} } := by
  refine ⟨?_, by decide, by decide, by decide, by decide⟩
  intro text
  unfold extract_tags_mentions
  rw [scanSym_eq_posSym '#' (by decide), scanSym_eq_posSym '@' (by decide)]

/-- C3: `trending` returns all posts sorted in descending order of
`(3·likes + 2·comments + 1) / max(1, hoursSince)^0.7`, recomputed from the
store at each call; for a fixed post the score is monotonically decreasing in
elapsed time, strictly between 1 hour and 10 hours of age. -/
theorem claim_C3 :
    (∀ (s : SocialStore) (now : ℚ),
      (s.trending now).Perm (s.posts.map Prod.snd) ∧
      (s.trending now).Pairwise (fun a b => score now b ≤ score now a)) ∧
    (∀ (p : Post) (now1 now2 : ℚ), now1 ≤ now2 → score now2 p ≤ score now1 p) ∧
    (∀ (p : Post) (now1 now2 : ℚ), now1 - p.ts = 3600 → now2 - p.ts = 36000 →
      score now2 p < score now1 p) :=
  ⟨fun s now => ⟨List.mergeSort_perm _ _, scoreDesc_sorted s now⟩,
    fun p _ _ h => score_antitone p h,
    fun p _ _ h1 h2 => score_strict p h1 h2⟩

theorem claim_C3_witness :
    score (36000 : ℚ) post1 < score (3600 : ℚ) post1 ∧
    score (36000 : ℚ) post1 ≤ score (3600 : ℚ) post1 :=
  ⟨claim_C3.2.2 post1 3600 36000 (by simp [post1]) (by simp [post1]),
   claim_C3.2.1 post1 3600 36000 (by norm_num)⟩

/-- C4: for every sequence, page number and positive page size, `paginate`
returns `totalPages = max 1 ⌈N / pageSize⌉`, clamps the page number into
`[1, totalPages]`, and returns the slice of the clamped page; the two
concrete examples of the spec hold. -/
theorem claim_C4 :
    (∀ (α : Type) (items : List α) (page : ℤ) (per_page : ℕ), 0 < per_page →
      ∃ pageItems total_pages,
        paginate items page per_page = some (pageItems, total_pages) ∧
        total_pages = max 1 ⌈(items.length : ℚ) / (per_page : ℚ)⌉₊ ∧
        1 ≤ max 1 (min page (total_pages : ℤ)) ∧
        max 1 (min page (total_pages : ℤ)) ≤ (total_pages : ℤ) ∧
        pageItems =
          (items.drop ((max 1 (min page (total_pages : ℤ)) - 1).toNat * per_page)).take
            per_page) ∧
    paginate ([] : List ℕ) 5 10 = some ([], 1) ∧
    (∃ items : List ℕ, items.length = 11 ∧
      (paginate items 2 10).map (fun r => (r.1.length, r.2)) = some (1, 2)) := by
  refine ⟨?_, by decide, ⟨List.range 11, by decide, by decide⟩⟩
  intro α items page per hper
  unfold paginate
  rw [if_neg (by omega)]
  refine ⟨_, _, rfl, ?_, le_max_left _ _, ?_, rfl⟩
  · rw [ceil_div_eq _ _ hper]
  · have h1 : (1:ℤ) ≤ ((max 1 ((items.length + per - 1) / per) : ℕ) : ℤ) := by
      have : 1 ≤ max 1 ((items.length + per - 1) / per) := le_max_left 1 _
      exact_mod_cast this
    exact max_le h1 (min_le_right _ _)

theorem claim_C4_witness :
    0 < 10 ∧
    ∃ pageItems total_pages,
      paginate ([] : List ℕ) 5 10 = some (pageItems, total_pages) ∧
      total_pages = max 1 ⌈((([] : List ℕ)).length : ℚ) / ((10:ℕ) : ℚ)⌉₊ ∧
      1 ≤ max 1 (min 5 (total_pages : ℤ)) ∧
      max 1 (min 5 (total_pages : ℤ)) ≤ (total_pages : ℤ) ∧
      pageItems =
        ((([] : List ℕ)).drop ((max 1 (min 5 (total_pages : ℤ)) - 1).toNat * 10)).take 10 :=
  ⟨by norm_num, claim_C4.1 ℕ [] 5 10 (by norm_num)⟩

/-- C5 as stated is violated by `paginate` with `pageSize = 0`: the Python
code raises `ZeroDivisionError` (embedded as `none`) instead of returning a
sentinel. -/
theorem claim_C5_counterexample : paginate ([] : List ℕ) 1 0 = none := rfl

/-- C5 (amended): every identity, graph, content and feed operation is total
and signals failure via its sentinel with the store left completely
unchanged; `paginate` is total for every positive page size (page size 0
models the `ZeroDivisionError` raise as `none`). -/
theorem claim_C5 (s : SocialStore) :
    (∀ u pw, (s.create_user u pw).1 = false → (s.create_user u pw).2 = s) ∧
    (∀ u bio av, (s.update_profile u bio av).1 = false →
      (s.update_profile u bio av).2 = s) ∧
    (∀ a b, (s.follow a b).1 = false → (s.follow a b).2 = s) ∧
    (∀ a b, (s.unfollow a b).1 = false → (s.unfollow a b).2 = s) ∧
    (∀ author text img pid ts, (s.create_post author text img pid ts).1 = none →
      (s.create_post author text img pid ts).2 = s) ∧
    (∀ pid u, (s.toggle_like pid u).1 = false → (s.toggle_like pid u).2 = s) ∧
    (∀ pid a text ts, (s.add_comment pid a text ts).1 = false →
      (s.add_comment pid a text ts).2 = s) ∧
    (∀ u, dget u s.users = none → s.feed_for u = []) ∧
    (∀ (α : Type) (items : List α) (page : ℤ) (per : ℕ), 0 < per →
      (paginate items page per).isSome) := by
  refine ⟨fun u pw h => create_user_fail h, fun u bio av h => update_profile_fail h,
    fun a b h => follow_fail h, fun a b h => unfollow_fail h,
    fun author text img pid ts h => create_post_fail h,
    fun pid u h => toggle_like_fail h, fun pid a text ts h => add_comment_fail h,
    ?_, ?_⟩
  · intro u h
    unfold feed_for
    simp [h]
  · intro α items page per hper
    unfold paginate
    rw [if_neg (by omega)]
    simp

theorem claim_C5_witness :
    (({} : SocialStore).create_user "" "pw").1 = false ∧
    (({} : SocialStore).create_user "" "pw").2 = {} :=
  ⟨by decide, (claim_C5 {}).1 "" "pw" (by decide)⟩

/-- C6: for a known username the following feed is exactly the posts authored
by that user or by someone the user follows (own posts included), ordered
newest-first by timestamp; for an unknown username it is empty. The model is
a pure function of the store, so repeated calls on unchanged data are
trivially stable. -/
theorem claim_C6 (s : SocialStore) (hs : Reachable s) (u : String) :
    (dget u s.users = none → s.feed_for u = []) ∧
    (∀ uu, dget u s.users = some uu →
      (s.feed_for u).Perm ((s.posts.map Prod.snd).filter
        (fun p => p.author ∈ uu.following.insert u)) ∧
      (s.feed_for u).Pairwise (fun p q => q.ts ≤ p.ts)) := by
  constructor
  · intro h
    unfold feed_for
    simp [h]
  · intro uu hu
    rw [feed_for_eq_mergeSort hu]
    exact ⟨(List.mergeSort_perm _ _).trans (gatherFeed_perm (reachable_inv hs) hu),
      tsDesc_sorted _⟩

theorem claim_C6_witness :
    (st3.feed_for "alice").Perm ((st3.posts.map Prod.snd).filter
      (fun p => p.author ∈ aliceSt3.following.insert "alice")) :=
  ((claim_C6 st3 reach_st3 "alice").2 aliceSt3 (by decide)).1

/-- C7: `toggle_like` returns false and changes nothing when the post or the
user is unknown; otherwise it flips membership in the like set, and applying
it twice restores the original like set (in particular a non-liker is again a
non-liker). -/
theorem claim_C7 (s : SocialStore) (pid username : String) :
    ((dget pid s.posts = none ∨ dget username s.users = none) →
      s.toggle_like pid username = (false, s)) ∧
    (∀ p, dget pid s.posts = some p → (dget username s.users).isSome →
      (s.toggle_like pid username).1 = true ∧
      ∃ p', dget pid
          (SocialStore.toggle_like (s.toggle_like pid username).2 pid username).2.posts
          = some p' ∧ p'.likes = p.likes ∧
        (username ∉ p.likes → username ∉ p'.likes)) := by
  constructor
  · rintro (hp | hu)
    · unfold toggle_like
      simp [hp]
    · unfold toggle_like
      rcases opt_cases (dget pid s.posts) with h | ⟨p, h⟩
      · simp [h]
      · simp only [h]
        rw [if_pos (by simp [hu])]
  · intro p hp hu
    have h1 := toggle_like_some hp hu
    have hp2 : dget pid (s.toggle_like pid username).2.posts =
        some (toggledPost p username) := by
      rw [h1]
      exact dget_setk_self pid _ _
    have hu2 : (dget username (s.toggle_like pid username).2.users).isSome := by
      rw [h1]
      exact hu
    have h2 := toggle_like_some hp2 hu2
    have hlikes : (toggledPost (toggledPost p username) username).likes = p.likes := by
      unfold toggledPost
      by_cases hm : username ∈ p.likes
      · rw [if_pos hm]
        rw [if_neg (Finset.not_mem_erase username p.likes)]
        exact Finset.insert_erase hm
      · rw [if_neg hm]
        rw [if_pos (Finset.mem_insert_self username p.likes)]
        exact Finset.erase_insert hm
    refine ⟨by rw [h1], toggledPost (toggledPost p username) username, ?_, hlikes, ?_⟩
    · rw [h2]
      exact dget_setk_self pid _ _
    · intro hm
      rw [hlikes]
      exact hm

theorem claim_C7_witness :
    (stp.toggle_like "p1" "alice").1 = true ∧
    ∃ p', dget "p1"
        (SocialStore.toggle_like (stp.toggle_like "p1" "alice").2 "p1" "alice").2.posts
        = some p' ∧ p'.likes = post1.likes ∧
      ("alice" ∉ post1.likes → "alice" ∉ p'.likes) :=
  (claim_C7 stp "p1" "alice").2 post1 (by decide) (by decide)

/-- C8: no core operation changes an existing post's id, author, text,
timestamp, image, hashtags or mentions: operations outside the content store
leave the post map untouched, `create_post` (with a fresh id) preserves every
existing entry exactly, `toggle_like` modifies only the like set of the
targeted post, and `add_comment` only appends to the end of the comment
sequence of the targeted post, so the old comment sequence is always a prefix
of the new one. -/
theorem claim_C8 (s : SocialStore) :
    (∀ u pw, (s.create_user u pw).2.posts = s.posts) ∧
    (∀ u bio av, (s.update_profile u bio av).2.posts = s.posts) ∧
    (∀ u sid c, (s.new_session u sid c).2.posts = s.posts) ∧
    (∀ sid, (s.destroy_session sid).posts = s.posts) ∧
    (∀ a b, (s.follow a b).2.posts = s.posts) ∧
    (∀ a b, (s.unfollow a b).2.posts = s.posts) ∧
    (∀ author text img pid ts, dget pid s.posts = none → ∀ pid' p,
      dget pid' s.posts = some p →
      dget pid' (s.create_post author text img pid ts).2.posts = some p) ∧
    (∀ pid u pid' p, dget pid' s.posts = some p →
      ∃ p', dget pid' (s.toggle_like pid u).2.posts = some p' ∧
        p'.id = p.id ∧ p'.author = p.author ∧ p'.text = p.text ∧ p'.ts = p.ts ∧
        p'.image_url = p.image_url ∧ p'.hashtags = p.hashtags ∧
        p'.mentions = p.mentions ∧ p'.comments = p.comments ∧
        (pid' ≠ pid → p' = p)) ∧
    (∀ pid a text ts pid' p, dget pid' s.posts = some p →
      ∃ p', dget pid' (s.add_comment pid a text ts).2.posts = some p' ∧
        p'.id = p.id ∧ p'.author = p.author ∧ p'.text = p.text ∧ p'.ts = p.ts ∧
        p'.image_url = p.image_url ∧ p'.hashtags = p.hashtags ∧
        p'.mentions = p.mentions ∧ p'.likes = p.likes ∧
        (∃ tail, p'.comments = p.comments ++ tail) ∧
        (pid' ≠ pid → p' = p)) := by
  refine ⟨create_user_posts s, update_profile_posts s, new_session_posts s,
    destroy_session_posts s, follow_posts s, unfollow_posts s,
    fun author text img pid ts hfresh pid' p hp' =>
      create_post_posts_frame hfresh hp', ?_, ?_⟩
  · intro pid u pid' p hp'
    cases hres : (s.toggle_like pid u).1 with
    | false =>
      refine ⟨p, ?_, rfl, rfl, rfl, rfl, rfl, rfl, rfl, rfl, fun _ => rfl⟩
      rw [toggle_like_fail hres]
      exact hp'
    | true =>
      obtain ⟨q, hq, hu, heq⟩ := toggle_like_true hres
      by_cases h : pid' = pid
      · subst h
        rw [hq] at hp'
        injection hp' with hp'
        subst hp'
        refine ⟨toggledPost q u, ?_, rfl, rfl, rfl, rfl, rfl, rfl, rfl, rfl,
          fun hne => absurd rfl hne⟩
        rw [heq]
        exact dget_setk_self pid' _ _
      · refine ⟨p, ?_, rfl, rfl, rfl, rfl, rfl, rfl, rfl, rfl, fun _ => rfl⟩
        rw [heq]
        show dget pid' (setk pid _ s.posts) = some p
        rw [dget_setk_ne h]
        exact hp'
  · intro pid a text ts pid' p hp'
    cases hres : (s.add_comment pid a text ts).1 with
    | false =>
      refine ⟨p, ?_, rfl, rfl, rfl, rfl, rfl, rfl, rfl, rfl,
        ⟨[], (List.append_nil _).symm⟩, fun _ => rfl⟩
      rw [add_comment_fail hres]
      exact hp'
    | true =>
      obtain ⟨q, hq, hu, htext, heq⟩ := add_comment_true hres
      by_cases h : pid' = pid
      · subst h
        rw [hq] at hp'
        injection hp' with hp'
        subst hp'
        refine ⟨commentedPost q a text ts, ?_, rfl, rfl, rfl, rfl, rfl, rfl, rfl, rfl,
          ⟨[{ author := a, text := text.take 200, ts := ts }], rfl⟩,
          fun hne => absurd rfl hne⟩
        rw [heq]
        exact dget_setk_self pid' _ _
      · refine ⟨p, ?_, rfl, rfl, rfl, rfl, rfl, rfl, rfl, rfl,
          ⟨[], (List.append_nil _).symm⟩, fun _ => rfl⟩
        rw [heq]
        show dget pid' (setk pid _ s.posts) = some p
        rw [dget_setk_ne h]
        exact hp'

theorem claim_C8_witness :
    ∃ p', dget "p1" (stp.add_comment "p1" "alice" "nice".data 5).2.posts = some p' ∧
      p'.id = post1.id ∧ p'.author = post1.author ∧ p'.text = post1.text ∧
      p'.ts = post1.ts ∧ p'.image_url = post1.image_url ∧
      p'.hashtags = post1.hashtags ∧ p'.mentions = post1.mentions ∧
      p'.likes = post1.likes ∧ (∃ tail, p'.comments = post1.comments ++ tail) ∧
      ("p1" ≠ "p1" → p' = post1) :=
  (claim_C8 stp).2.2.2.2.2.2.2.2 "p1" "alice" "nice".data 5 "p1" post1 (by decide)

/-- C9: in every reachable state a session token resolves to a CSRF secret
exactly when it resolves to a username; `new_session` installs both bindings
for the same token and `destroy_session` removes both. -/
theorem claim_C9 (s : SocialStore) (hs : Reachable s) :
    (∀ tok, (s.csrf_for_sid tok).isSome ↔ (s.username_for_sid tok).isSome) ∧
    (∀ u sid c, dget sid (s.new_session u sid c).2.sessions = some u ∧
      dget sid (s.new_session u sid c).2.csrf_tokens = some c) ∧
    (∀ sid, (s.destroy_session (some sid)).username_for_sid (some sid) = none ∧
      (s.destroy_session (some sid)).csrf_for_sid (some sid) = none) := by
  have hS := (reachable_inv hs).2.1
  refine ⟨?_, ?_, ?_⟩
  · intro tok
    cases tok with
    | none => simp [csrf_for_sid, username_for_sid]
    | some i =>
      by_cases hi : i = ""
      · simp [csrf_for_sid, username_for_sid, hi]
      · simp only [csrf_for_sid, username_for_sid, if_neg hi]
        exact (hS.dom i).symm
  · intro u sid c
    exact ⟨dget_setk_self sid u s.sessions, dget_setk_self sid c s.csrf_tokens⟩
  · intro sid
    by_cases hi : sid = ""
    · simp [destroy_session, username_for_sid, csrf_for_sid, hi]
    · simp only [destroy_session, username_for_sid, csrf_for_sid, if_neg hi]
      exact ⟨dget_popk_self sid s.sessions, dget_popk_self sid s.csrf_tokens⟩

theorem claim_C9_witness :
    (st1.csrf_for_sid (some "t")).isSome ↔ (st1.username_for_sid (some "t")).isSome :=
  (claim_C9 st1 reach_st1).1 (some "t")

/-- A 284-character text whose only hashtag token starts after character 280. -/
def longText : List Char := List.replicate 279 'a' ++ (' ' :: ['#', 't', 'a', 'g'])

set_option maxRecDepth 40000 in
/-- C10: `create_post` extracts hashtags and mentions from the full supplied
text before truncating it to 280 characters for storage: for `longText`
(284 characters whose only `#tag` lies after character 280), the created
post's hashtag set is `{"tag"}` even though the stored 280-character text
contains no hashtag token at all. -/
theorem claim_C10 :
    280 < longText.length ∧
    dget "p1" ((st1.create_post "alice" longText none "p1" 0).2.posts) =
      some { id := "p1", author := "alice", text := List.replicate 279 'a' ++ [' '],
             ts := 0, hashtags := {"tag"}, mentions := ∅ } ∧
    extract_tags_mentions (List.replicate 279 'a' ++ [' ']) = (∅, ∅) := by
  refine ⟨by decide, by decide, by decide⟩

end SocialStore
